import Mathlib

set_option maxHeartbeats 1600000

/-!
Verification of the linear-hashing set `ADS_set<Key, N>` from `ADS_set.h`.

The C++ class is shallowly embedded: a bucket is its list of live slots
together with its allocated capacity, the directory is a list of buckets,
and the index state records the split round `d` (`split_round`), the split
pointer `s` (`table_split_index`), the directory and the stored-item count
`n` (`table_items_size`).  Machine integers (`size_type`) are modelled as
`Nat`; under the proved invariants no subtraction underflows, so `Nat`
truncation and unsigned arithmetic agree on every reachable state.

`ADS_set::insert` and `ADS_set::split` are mutually recursive in the
source (the re-insertion loop of `split` calls the public `insert`), so
the embedding threads an explicit fuel argument; `none` means the fuel ran
out, and every theorem about executions is stated for runs that complete.
A ghost field `split_count` counts the invocations of `split()`; it is not
part of the C++ state and no operation reads it.
-/

/-- One bucket (`ADS_set::Bucket`): the live slots `values` (the first
`values_size` cells of the backing array, in order) and the allocated
`values_capacity`. -/
structure Bucket (α : Type) where
  values : List α
  capacity : Nat
deriving DecidableEq

/-- A freshly constructed bucket (`Bucket()`): empty, capacity `N`. -/
def Bucket.empty (α : Type) (N : Nat) : Bucket α :=
  ⟨[], N⟩

/-- The scan loop of `Bucket::index_of`: position of the first slot equal
to `k`, if any. -/
def scanIdx {α : Type} [DecidableEq α] (k : α) : List α → Option Nat
  | [] => none
  | v :: vs => if v = k then some 0 else (scanIdx k vs).map (· + 1)

/-- `Bucket::index_of`: the slot index of `k`, or the sentinel
`values_capacity` when `k` is not stored. -/
def Bucket.index_of {α : Type} [DecidableEq α] (b : Bucket α) (k : α) : Nat :=
  (scanIdx k b.values).getD b.capacity

/-- `Bucket::full`: `values_size == values_capacity`. -/
def Bucket.full {α : Type} (b : Bucket α) : Bool :=
  b.values.length == b.capacity

/-- `Bucket::expand`: grow the backing array to `values_size + N`. -/
def Bucket.expand {α : Type} (N : Nat) (b : Bucket α) : Bucket α :=
  { b with capacity := b.values.length + N }

/-- `Bucket::insert`: return the found slot and `false` when `k` is
already stored, otherwise (expanding first when `values_size` has reached
`values_capacity`) append `k` at slot `values_size` and return that slot
and `true`. -/
def Bucket.insert {α : Type} [DecidableEq α] (N : Nat) (b : Bucket α) (k : α) :
    (Nat × Bool) × Bucket α :=
  let i := b.index_of k
  if i ≠ b.capacity then ((i, false), b)
  else
    let b' := if b.values.length ≥ b.capacity then b.expand N else b
    ((b'.values.length, true), { b' with values := b'.values ++ [k] })

/-- The swap-with-last removal of `Bucket::erase`: overwrite slot `i` with
the last slot, then drop the last slot. -/
def swapRemove {α : Type} (vs : List α) (i : Nat) : List α :=
  match vs.getLast? with
  | none => vs
  | some lst => (vs.set i lst).dropLast

/-- `Bucket::erase`: remove `k` by swap-with-last; returns how many slots
were removed (0 or 1) and the updated bucket. -/
def Bucket.erase {α : Type} [DecidableEq α] (b : Bucket α) (k : α) :
    Nat × Bucket α :=
  let i := b.index_of k
  if i = b.capacity then (0, b)
  else (1, { b with values := swapRemove b.values i })

/-- `Bucket::count`: 1 when `locate` finds `k` (i.e. `index_of` is not the
sentinel), else 0. -/
def Bucket.count {α : Type} [DecidableEq α] (b : Bucket α) (k : α) : Nat :=
  if b.index_of k = b.capacity then 0 else 1

/-- The state of `ADS_set<Key, N>`: split round `d`, split pointer `s`,
the directory (`table`, whose length is `table_size`) and the stored-item
count `n`.  `split_count` is a ghost counter of `split()` invocations,
absent from the source and read by no operation. -/
structure ADS_set (α : Type) where
  split_round : Nat
  table_split_index : Nat
  table : List (Bucket α)
  table_items_size : Nat
  split_count : Nat
deriving DecidableEq

/-- `ADS_set::h`: hash for the current split round, `hash(key) % 2^d`. -/
def ADS_set.h {α : Type} (hash : α → Nat) (st : ADS_set α) (k : α) : Nat :=
  hash k % 2 ^ st.split_round

/-- `ADS_set::g`: hash for the next split round, `hash(key) % 2^(d+1)`. -/
def ADS_set.g {α : Type} (hash : α → Nat) (st : ADS_set α) (k : α) : Nat :=
  hash k % 2 ^ (st.split_round + 1)

/-- The index computed by `ADS_set::bucket_at`: `h(key)`, or `g(key)` for
buckets already split in this round. -/
def ADS_set.bucket_index {α : Type} (hash : α → Nat) (st : ADS_set α) (k : α) : Nat :=
  let i := ADS_set.h hash st k
  if i < st.table_split_index then ADS_set.g hash st k else i

/-- `ADS_set::bucket_at`: the bucket the key's value should be at. -/
def ADS_set.bucket_at {α : Type} (hash : α → Nat) (N : Nat) (st : ADS_set α) (k : α) :
    Bucket α :=
  st.table.getD (ADS_set.bucket_index hash st k) (Bucket.empty α N)

/-- `ADS_set::reserve`: ignore shrinking requests; otherwise extend the
directory with fresh empty buckets (the old buckets are moved into the
prefix of the new directory). -/
def ADS_set.reserve {α : Type} (N : Nat) (st : ADS_set α) (new_table_size : Nat) :
    ADS_set α :=
  if st.table.length ≥ new_table_size then st
  else { st with
         table := st.table ++
           List.replicate (new_table_size - st.table.length) (Bucket.empty α N) }

/-- `ADS_set::ADS_set()`: split round 1, split pointer 0, two fresh
buckets, no items. -/
def ADS_set.init (α : Type) (N : Nat) : ADS_set α :=
  { split_round := 1
    table_split_index := 0
    table := List.replicate 2 (Bucket.empty α N)
    table_items_size := 0
    split_count := 0 }

/-- The three mutually recursive operations of the source --
`ADS_set::insert`, `ADS_set::split` and the re-insertion loop of `split`
-- packaged as one triple of functions, indexed by fuel.  `execStep`
performs one layer of the mutual recursion, calling the next-smaller
layer `prev`; the bodies are the direct transcription of the source. -/
def ADS_set.execStep {α : Type} [DecidableEq α] (hash : α → Nat) (N : Nat)
    (prev : (ADS_set α → α → Option (ADS_set α × Nat × Bool)) ×
      (ADS_set α → Option (ADS_set α)) ×
      (ADS_set α → List α → Option (ADS_set α))) :
    (ADS_set α → α → Option (ADS_set α × Nat × Bool)) ×
      (ADS_set α → Option (ADS_set α)) ×
      (ADS_set α → List α → Option (ADS_set α)) :=
  (fun st k =>
    match (if (ADS_set.bucket_at hash N st k).full then prev.2.1 st else some st) with
    | none => none
    | some st1 =>
      let idx := ADS_set.bucket_index hash st1 k
      let b := st1.table.getD idx (Bucket.empty α N)
      let r := Bucket.insert N b k
      some ({ st1 with
              table := st1.table.set idx r.2
              table_items_size :=
                if r.1.2 then st1.table_items_size + 1 else st1.table_items_size },
            r.1.1, r.1.2),
   fun st =>
    let max_table_size := 2 ^ st.split_round
    let st1 := if st.table.length = max_table_size
               then ADS_set.reserve N st (st.table.length * 2)
               else st
    let bucket := st1.table.getD st1.table_split_index (Bucket.empty α N)
    let st2 := { st1 with
                 table := st1.table.set st1.table_split_index (Bucket.empty α N)
                 table_items_size := st1.table_items_size - bucket.values.length
                 split_count := st1.split_count + 1 }
    let st3 := if st2.table_split_index ≥ max_table_size
               then { st2 with table_split_index := 0
                               split_round := st2.split_round + 1 }
               else { st2 with table_split_index := st2.table_split_index + 1 }
    prev.2.2 st3 bucket.values,
   fun st l =>
    match l with
    | [] => some st
    | k :: ks =>
      match prev.1 st k with
      | none => none
      | some r => prev.2.2 r.1 ks)

/-- Out-of-fuel layer: every operation fails (an empty re-insertion list
still succeeds, matching the loop that performs no iteration). -/
def ADS_set.execBase {α : Type} [DecidableEq α] (hash : α → Nat) (N : Nat) :
    (ADS_set α → α → Option (ADS_set α × Nat × Bool)) ×
      (ADS_set α → Option (ADS_set α)) ×
      (ADS_set α → List α → Option (ADS_set α)) :=
  (fun _ _ => none, fun _ => none,
   fun st l =>
    match l with
    | [] => some st
    | _ :: _ => none)

/-- The fuel-indexed triple of operations. -/
def ADS_set.exec {α : Type} [DecidableEq α] (hash : α → Nat) (N : Nat) (fuel : Nat) :
    (ADS_set α → α → Option (ADS_set α × Nat × Bool)) ×
      (ADS_set α → Option (ADS_set α)) ×
      (ADS_set α → List α → Option (ADS_set α)) :=
  Nat.rec (ADS_set.execBase hash N) (fun _ prev => ADS_set.execStep hash N prev) fuel

/-- `ADS_set::insert(key)`: split when the target bucket is full, then
re-resolve the bucket and delegate to `Bucket::insert`, incrementing `n`
when a value was added.  Returns the updated state, the slot index handed
to the iterator, and the `added` flag; `none` when the fuel ran out. -/
def ADS_set.insert {α : Type} [DecidableEq α] (hash : α → Nat) (N : Nat)
    (fuel : Nat) (st : ADS_set α) (k : α) : Option (ADS_set α × Nat × Bool) :=
  (ADS_set.exec hash N fuel).1 st k

/-- `ADS_set::split()`: double the directory when `table_size` equals
`2^d`, move the bucket at the split pointer out (a fresh empty bucket
takes its place), subtract its size from `n`, advance the split pointer
(resetting it and incrementing the round when it has reached `2^d`), and
re-insert the drained values through the public `insert` path.  The ghost
`split_count` is incremented. -/
def ADS_set.split {α : Type} [DecidableEq α] (hash : α → Nat) (N : Nat)
    (fuel : Nat) (st : ADS_set α) : Option (ADS_set α) :=
  (ADS_set.exec hash N fuel).2.1 st

/-- The re-insertion loop of `ADS_set::split`: insert the drained values
back one by one through the public `insert` path. -/
def ADS_set.reinsert {α : Type} [DecidableEq α] (hash : α → Nat) (N : Nat)
    (fuel : Nat) (st : ADS_set α) (l : List α) : Option (ADS_set α) :=
  (ADS_set.exec hash N fuel).2.2 st l

/-- `ADS_set::erase(key)`: delegate to `Bucket::erase` on the target
bucket and subtract the returned count from `n`. -/
def ADS_set.erase {α : Type} [DecidableEq α] (hash : α → Nat) (N : Nat)
    (st : ADS_set α) (k : α) : Nat × ADS_set α :=
  let idx := ADS_set.bucket_index hash st k
  let b := st.table.getD idx (Bucket.empty α N)
  let r := Bucket.erase b k
  (r.1, { st with
          table := st.table.set idx r.2
          table_items_size := st.table_items_size - r.1 })

/-- `ADS_set::count(key)`: delegate to the target bucket. -/
def ADS_set.count {α : Type} [DecidableEq α] (hash : α → Nat) (N : Nat)
    (st : ADS_set α) (k : α) : Nat :=
  Bucket.count (ADS_set.bucket_at hash N st k) k

/-- All stored values in iteration order: bucket by bucket, slot by slot. -/
def ADS_set.contents {α : Type} (st : ADS_set α) : List α :=
  (st.table.map Bucket.values).flatten

/-- `operator==` on two indices: equal stored-item counts, and every
element enumerated from the left index is counted in the right one. -/
def ADS_set.beq {α : Type} [DecidableEq α] (hash : α → Nat) (N : Nat)
    (a b : ADS_set α) : Bool :=
  if a.table_items_size ≠ b.table_items_size then false
  else (ADS_set.contents a).all fun k => decide (ADS_set.count hash N b k ≠ 0)

/-- A public mutating operation: `insert(key)` or `erase(key)`. -/
inductive Op (α : Type) where
  | ins : α → Op α
  | del : α → Op α
deriving DecidableEq

/-- Run one public operation (inserts receive the given fuel). -/
def ADS_set.runOp {α : Type} [DecidableEq α] (hash : α → Nat) (N : Nat) (fuel : Nat)
    (st : ADS_set α) : Op α → Option (ADS_set α)
  | Op.ins k => (ADS_set.insert hash N fuel st k).map (·.1)
  | Op.del k => some (ADS_set.erase hash N st k).2

/-- Run a sequence of public operations. -/
def ADS_set.runOps {α : Type} [DecidableEq α] (hash : α → Nat) (N : Nat) (fuel : Nat) :
    ADS_set α → List (Op α) → Option (ADS_set α)
  | st, [] => some st
  | st, op :: ops =>
    match ADS_set.runOp hash N fuel st op with
    | none => none
    | some st' => ADS_set.runOps hash N fuel st' ops

/-- Reference model for set semantics: the list of distinct surviving keys
in first-insertion order.  Inserting an absent key appends it; inserting a
present key changes nothing. -/
def modelIns {α : Type} [DecidableEq α] (l : List α) (k : α) : List α :=
  if k ∈ l then l else l ++ [k]

/-- Reference model run: fold the operations over the surviving-key list. -/
def modelRun {α : Type} [DecidableEq α] : List α → List (Op α) → List α
  | l, [] => l
  | l, Op.ins k :: ops => modelRun (modelIns l k) ops
  | l, Op.del k :: ops => modelRun (l.erase k) ops

/-- Whether key `k` survives the operation sequence, starting from the
given membership bit: an insert of `k` sets it, an erase of `k` clears
it. -/
def survivingFrom {α : Type} [DecidableEq α] : Bool → List (Op α) → α → Bool
  | b, [], _ => b
  | b, Op.ins j :: ops, k => survivingFrom (b || (j == k)) ops k
  | b, Op.del j :: ops, k => survivingFrom (b && !(j == k)) ops k

/-- The loop of `Iterator::skip_empty_buckets` on the bucket suffix
starting at position `p`: advance while the bucket is empty and the end of
the directory has not been reached. -/
def skipGo {α : Type} : List (Bucket α) → Nat → Nat
  | [], p => p
  | b :: rest, p => if b.values.length = 0 then skipGo rest (p + 1) else p

/-- `Iterator::skip_empty_buckets` over a directory of length `M`, with
bucket pointers modelled as offsets from `table`: the loop reads
`current->size()` only after checking `current != end`, so it reads only
positions strictly below `M`. -/
def skip_empty {α : Type} (table : List (Bucket α)) (p : Nat) : Nat :=
  skipGo (table.drop p) p

/-- The `Iterator` constructor in a total embedding: it first evaluates
`current->size()`, i.e. reads the bucket at offset `p`; `none` models that
read falling outside the directory.  Otherwise it returns the final
`(current, index)` pair: unchanged when `index` is in range, else the first
non-empty bucket from `p` with index 0. -/
def iterCtor {α : Type} (table : List (Bucket α)) (p idx : Nat) : Option (Nat × Nat) :=
  match table[p]? with
  | none => none
  | some b => if idx ≥ b.values.length then some (skip_empty table p, 0) else some (p, idx)

/-- `ADS_set::begin()`: constructs `Iterator(table, table + M, 0)`. -/
def ADS_set.begin_iter {α : Type} (st : ADS_set α) : Option (Nat × Nat) :=
  iterCtor st.table 0 0

/-- `ADS_set::end()`: constructs `Iterator(table + M, table + M, 0)`, so
the constructor's `current->size()` read is at offset `M`. -/
def ADS_set.end_iter {α : Type} (st : ADS_set α) : Option (Nat × Nat) :=
  iterCtor st.table st.table.length 0

/-- Insert operations for the concrete runs (identity hash, `N = 5`). -/
def insOps (l : List Nat) : List (Op Nat) :=
  l.map Op.ins

/-- State after inserting 1, 5, 9, 13, 17, 21, 4, 8, 12, 16, 20: one split
has happened (at the insert of 21) and bucket 0 is full. -/
def c3st : ADS_set Nat :=
  (ADS_set.runOps id 5 30 (ADS_set.init Nat 5)
    (insOps [1, 5, 9, 13, 17, 21, 4, 8, 12, 16, 20])).getD (ADS_set.init Nat 5)

/-- State after inserting 1, 3, 5, 7, 9: bucket 1 holds five keys and is
full. -/
def c4st : ADS_set Nat :=
  (ADS_set.runOps id 5 30 (ADS_set.init Nat 5)
    (insOps [1, 3, 5, 7, 9])).getD (ADS_set.init Nat 5)

/-- State after a single insert of 1: bucket 1 holds one key. -/
def c4wst : ADS_set Nat :=
  (ADS_set.runOps id 5 30 (ADS_set.init Nat 5) (insOps [1])).getD (ADS_set.init Nat 5)

/-- State after inserting the odd keys 1..21: two splits have happened and
the split pointer has reached `2^d`. -/
def c5st : ADS_set Nat :=
  (ADS_set.runOps id 5 30 (ADS_set.init Nat 5)
    (insOps [1, 3, 5, 7, 9, 11, 13, 15, 17, 19, 21])).getD (ADS_set.init Nat 5)

/-- The previous run continued with an insert of 23, whose split advances
the round. -/
def c5st2 : ADS_set Nat :=
  (ADS_set.runOps id 5 30 (ADS_set.init Nat 5)
    (insOps [1, 3, 5, 7, 9, 11, 13, 15, 17, 19, 21, 23])).getD (ADS_set.init Nat 5)

/-- State after inserting 1, 2, 3, 4, 5 (scenario S1 prefix). -/
def c9st5 : ADS_set Nat :=
  (ADS_set.runOps id 5 30 (ADS_set.init Nat 5)
    (insOps [1, 2, 3, 4, 5])).getD (ADS_set.init Nat 5)

/-- State after inserting 1, 2, 3, 4, 5, 6 (scenario S1). -/
def c9st : ADS_set Nat :=
  (ADS_set.runOps id 5 30 (ADS_set.init Nat 5)
    (insOps [1, 2, 3, 4, 5, 6])).getD (ADS_set.init Nat 5)

/-- Index built from the insertion order 1, 2. -/
def c7a : ADS_set Nat :=
  (ADS_set.runOps id 5 30 (ADS_set.init Nat 5) (insOps [1, 2])).getD (ADS_set.init Nat 5)

/-- Index built from the insertion order 2, 1. -/
def c7b : ADS_set Nat :=
  (ADS_set.runOps id 5 30 (ADS_set.init Nat 5) (insOps [2, 1])).getD (ADS_set.init Nat 5)

/-- State after running insert 3, insert 5, erase 3. -/
def w1st : ADS_set Nat :=
  (ADS_set.runOps id 5 30 (ADS_set.init Nat 5)
    [Op.ins 3, Op.ins 5, Op.del 3]).getD (ADS_set.init Nat 5)

/-- State after a single insert of 3. -/
def w2st : ADS_set Nat :=
  (ADS_set.runOps id 5 30 (ADS_set.init Nat 5) [Op.ins 3]).getD (ADS_set.init Nat 5)

/-! ### Unfolding equations for the fuelled operations -/

theorem ADS_set.insert_zero {α : Type} [DecidableEq α] (hash : α → Nat) (N : Nat)
    (st : ADS_set α) (k : α) :
    ADS_set.insert hash N 0 st k = none := rfl

theorem ADS_set.split_zero {α : Type} [DecidableEq α] (hash : α → Nat) (N : Nat)
    (st : ADS_set α) :
    ADS_set.split hash N 0 st = none := rfl

theorem ADS_set.reinsert_zero_cons {α : Type} [DecidableEq α] (hash : α → Nat)
    (N : Nat) (st : ADS_set α) (k : α) (ks : List α) :
    ADS_set.reinsert hash N 0 st (k :: ks) = none := rfl

theorem ADS_set.reinsert_nil {α : Type} [DecidableEq α] (hash : α → Nat) (N : Nat)
    (fuel : Nat) (st : ADS_set α) :
    ADS_set.reinsert hash N fuel st [] = some st := by
  cases fuel <;> rfl

theorem ADS_set.insert_succ {α : Type} [DecidableEq α] (hash : α → Nat) (N : Nat)
    (fuel : Nat) (st : ADS_set α) (k : α) :
    ADS_set.insert hash N (fuel + 1) st k =
      (match (if (ADS_set.bucket_at hash N st k).full
              then ADS_set.split hash N fuel st
              else some st) with
      | none => none
      | some st1 =>
        some ({ st1 with
                table := st1.table.set (ADS_set.bucket_index hash st1 k)
                  (Bucket.insert N (st1.table.getD (ADS_set.bucket_index hash st1 k)
                    (Bucket.empty α N)) k).2
                table_items_size :=
                  if (Bucket.insert N (st1.table.getD (ADS_set.bucket_index hash st1 k)
                      (Bucket.empty α N)) k).1.2
                  then st1.table_items_size + 1 else st1.table_items_size },
              (Bucket.insert N (st1.table.getD (ADS_set.bucket_index hash st1 k)
                (Bucket.empty α N)) k).1.1,
              (Bucket.insert N (st1.table.getD (ADS_set.bucket_index hash st1 k)
                (Bucket.empty α N)) k).1.2)) := rfl

theorem ADS_set.split_succ {α : Type} [DecidableEq α] (hash : α → Nat) (N : Nat)
    (fuel : Nat) (st : ADS_set α) :
    ADS_set.split hash N (fuel + 1) st =
      (let st1 := if st.table.length = 2 ^ st.split_round
                  then ADS_set.reserve N st (st.table.length * 2)
                  else st
      let bucket := st1.table.getD st1.table_split_index (Bucket.empty α N)
      let st2 := { st1 with
                   table := st1.table.set st1.table_split_index (Bucket.empty α N)
                   table_items_size := st1.table_items_size - bucket.values.length
                   split_count := st1.split_count + 1 }
      let st3 := if st2.table_split_index ≥ 2 ^ st.split_round
                 then { st2 with table_split_index := 0
                                 split_round := st2.split_round + 1 }
                 else { st2 with table_split_index := st2.table_split_index + 1 }
      ADS_set.reinsert hash N fuel st3 bucket.values) := rfl

theorem ADS_set.reinsert_succ_cons {α : Type} [DecidableEq α] (hash : α → Nat)
    (N : Nat) (fuel : Nat) (st : ADS_set α) (k : α) (ks : List α) :
    ADS_set.reinsert hash N (fuel + 1) st (k :: ks) =
      (match ADS_set.insert hash N fuel st k with
      | none => none
      | some r => ADS_set.reinsert hash N fuel r.1 ks) := rfl

/-! ### Lemmas about the bucket scan -/

theorem scanIdx_eq_none_iff {α : Type} [DecidableEq α] (k : α) (vs : List α) :
    scanIdx k vs = none ↔ k ∉ vs := by
  induction vs with
  | nil => simp [scanIdx]
  | cons v vs ih =>
    by_cases hv : v = k
    · subst hv; simp [scanIdx]
    · simp only [scanIdx, if_neg hv, Option.map_eq_none', List.mem_cons, ih]
      constructor
      · rintro hnot (rfl | hk)
        · exact hv rfl
        · exact hnot hk
      · intro hnot hk; exact hnot (Or.inr hk)

theorem scanIdx_eq_some_decomp {α : Type} [DecidableEq α] {k : α} {vs : List α} {i : Nat}
    (h : scanIdx k vs = some i) :
    ∃ A B, vs = A ++ k :: B ∧ A.length = i := by
  induction vs generalizing i with
  | nil => simp [scanIdx] at h
  | cons v vs ih =>
    by_cases hv : v = k
    · subst hv
      have hs : scanIdx v (v :: vs) = some 0 := by simp [scanIdx]
      have h0 : (some 0 : Option Nat) = some i := hs.symm.trans h
      exact ⟨[], vs, rfl, by simpa using h0⟩
    · simp only [scanIdx, if_neg hv, Option.map_eq_some'] at h
      obtain ⟨j, hj, hji⟩ := h
      obtain ⟨A, B, hAB, hA⟩ := ih hj
      exact ⟨v :: A, B, by simp [hAB], by simp [hA, hji]⟩

theorem getElem?_append_len {α : Type} (A : List α) (b : α) (B : List α) :
    (A ++ b :: B)[A.length]? = some b := by
  induction A with
  | nil => simp
  | cons a A ih => simpa using ih

theorem set_append_len {α : Type} (A : List α) (b x : α) (B : List α) :
    (A ++ b :: B).set A.length x = A ++ x :: B := by
  induction A with
  | nil => rfl
  | cons a A ih => simp [List.set_cons_succ, ih]

/-! ### Lemmas about `Bucket` operations -/

theorem Bucket.index_of_eq_capacity_iff {α : Type} [DecidableEq α] (b : Bucket α) (k : α)
    (hle : b.values.length ≤ b.capacity) :
    b.index_of k = b.capacity ↔ k ∉ b.values := by
  unfold Bucket.index_of
  cases hscan : scanIdx k b.values with
  | none =>
    have hnot : k ∉ b.values := (scanIdx_eq_none_iff k b.values).mp hscan
    simp [hnot]
  | some i =>
    obtain ⟨A, B, hAB, hA⟩ := scanIdx_eq_some_decomp hscan
    have hmem : k ∈ b.values := by rw [hAB]; exact List.mem_append_right A (List.mem_cons_self k B)
    have hlt : i < b.values.length := by
      rw [hAB, List.length_append, List.length_cons, ← hA]; omega
    simp only [Option.getD_some, hmem, not_true_eq_false, iff_false]
    omega

theorem Bucket.index_of_mem {α : Type} [DecidableEq α] (b : Bucket α) (k : α)
    (hmem : k ∈ b.values) :
    b.index_of k < b.values.length ∧ b.values[b.index_of k]? = some k := by
  cases hscan : scanIdx k b.values with
  | none => exact absurd hmem ((scanIdx_eq_none_iff k b.values).mp hscan)
  | some i =>
    obtain ⟨A, B, hAB, hA⟩ := scanIdx_eq_some_decomp hscan
    have hio : b.index_of k = i := by unfold Bucket.index_of; rw [hscan]; rfl
    refine ⟨?_, ?_⟩
    · rw [hio, hAB, List.length_append, List.length_cons, ← hA]; omega
    · rw [hio, hAB, ← hA]; exact getElem?_append_len A k B

theorem swapRemove_decomp {α : Type} (A B : List α) (k : α)
    (hnd : (A ++ k :: B).Nodup) :
    (swapRemove (A ++ k :: B) A.length).length + 1 = (A ++ k :: B).length ∧
    (swapRemove (A ++ k :: B) A.length).Nodup ∧
    ∀ x, x ∈ swapRemove (A ++ k :: B) A.length ↔ x ∈ A ++ k :: B ∧ x ≠ k := by
  have hperm : (A ++ k :: B).Perm (k :: (A ++ B)) := List.perm_middle
  have hnd' : (k :: (A ++ B)).Nodup := hperm.nodup hnd
  rw [List.nodup_cons] at hnd'
  rcases List.eq_nil_or_concat B with hB | ⟨C, lst, hB⟩
  · subst hB
    have hsw : swapRemove (A ++ [k]) A.length = A := by
      unfold swapRemove
      rw [List.getLast?_concat A]
      show ((A ++ [k]).set A.length k).dropLast = A
      rw [set_append_len A k k [], List.dropLast_concat]
    rw [hsw]
    have hk : k ∉ A := by simpa using hnd'.1
    refine ⟨by simp, by simpa using hnd'.2, fun x => ?_⟩
    simp only [List.mem_append, List.mem_singleton, List.mem_cons,
      List.not_mem_nil, or_false]
    constructor
    · intro hx
      exact ⟨Or.inl hx, fun hxk => hk (hxk ▸ hx)⟩
    · rintro ⟨hx | rfl, hxk⟩
      · exact hx
      · exact absurd rfl hxk
  · subst hB
    rw [List.concat_eq_append] at *
    have hlist : A ++ k :: (C ++ [lst]) = (A ++ k :: C) ++ [lst] := by simp
    have hgl : (A ++ k :: (C ++ [lst])).getLast? = some lst := by
      rw [hlist]; exact List.getLast?_concat _
    have hsw : swapRemove (A ++ k :: (C ++ [lst])) A.length = A ++ lst :: C := by
      unfold swapRemove
      rw [hgl]
      show ((A ++ k :: (C ++ [lst])).set A.length lst).dropLast = A ++ lst :: C
      rw [set_append_len A k lst (C ++ [lst])]
      have : A ++ lst :: (C ++ [lst]) = (A ++ lst :: C) ++ [lst] := by simp
      rw [this, List.dropLast_concat]
    rw [hsw]
    have hknotin : k ∉ A ++ (C ++ [lst]) := hnd'.1
    have hnd2 : (A ++ (C ++ [lst])).Nodup := hnd'.2
    have hperm2 : (A ++ (C ++ [lst])).Perm (lst :: (A ++ C)) := by
      have h1 : A ++ (C ++ [lst]) = (A ++ C) ++ [lst] := by simp
      rw [h1]
      exact List.perm_append_singleton lst (A ++ C)
    have hnd3 : (lst :: (A ++ C)).Nodup := hperm2.nodup hnd2
    rw [List.nodup_cons] at hnd3
    have htgt : (A ++ lst :: C).Nodup := by
      have : (lst :: (A ++ C)).Perm (A ++ lst :: C) := List.perm_middle.symm
      exact this.nodup (List.nodup_cons.mpr hnd3)
    have hklst : k ≠ lst := by
      intro hcontra
      exact hknotin (by simp [hcontra])
    have hkAC : k ∉ A ++ C := by
      intro hx
      rcases List.mem_append.mp hx with hx | hx
      · exact hknotin (List.mem_append_left _ hx)
      · exact hknotin (List.mem_append_right _ (List.mem_append_left _ hx))
    refine ⟨by simp; omega, htgt, fun x => ?_⟩
    have hmem1 : x ∈ A ++ lst :: C ↔ x = lst ∨ x ∈ A ++ C := by
      rw [(show (A ++ lst :: C).Perm (lst :: (A ++ C)) from List.perm_middle).mem_iff]
      simp
    have hmem2 : x ∈ A ++ k :: (C ++ [lst]) ↔ x = k ∨ (x = lst ∨ x ∈ A ++ C) := by
      rw [hperm.mem_iff]
      simp only [List.mem_cons, hperm2.mem_iff]
    rw [hmem1, hmem2]
    constructor
    · rintro (rfl | hx)
      · exact ⟨Or.inr (Or.inl rfl), fun hxk => hklst hxk.symm⟩
      · exact ⟨Or.inr (Or.inr hx), fun hxk => hkAC (hxk ▸ hx)⟩
    · rintro ⟨rfl | hx, hxk⟩
      · exact absurd rfl hxk
      · exact hx

theorem Bucket.full_true_iff {α : Type} (b : Bucket α) :
    b.full = true ↔ b.values.length = b.capacity := by
  simp [Bucket.full]

theorem Bucket.full_false_iff {α : Type} (b : Bucket α)
    (hle : b.values.length ≤ b.capacity) :
    b.full = false ↔ b.values.length < b.capacity := by
  simp only [Bucket.full, beq_eq_false_iff_ne, ne_eq]
  omega

theorem Bucket.count_eval {α : Type} [DecidableEq α] (b : Bucket α) (k : α)
    (hle : b.values.length ≤ b.capacity) :
    b.count k = if k ∈ b.values then 1 else 0 := by
  unfold Bucket.count
  by_cases hmem : k ∈ b.values
  · have hne : b.index_of k ≠ b.capacity := fun hc =>
      ((Bucket.index_of_eq_capacity_iff b k hle).mp hc) hmem
    simp [hne, hmem]
  · simp [(Bucket.index_of_eq_capacity_iff b k hle).mpr hmem, hmem]

theorem Bucket.insert_mem_spec {α : Type} [DecidableEq α] (N : Nat) (b : Bucket α) (k : α)
    (hle : b.values.length ≤ b.capacity) (hmem : k ∈ b.values) :
    Bucket.insert N b k = ((b.index_of k, false), b) := by
  have hne : b.index_of k ≠ b.capacity := fun hc =>
    ((Bucket.index_of_eq_capacity_iff b k hle).mp hc) hmem
  unfold Bucket.insert
  simp [hne]

theorem Bucket.insert_not_mem_spec {α : Type} [DecidableEq α] (N : Nat) (b : Bucket α)
    (k : α) (hle : b.values.length ≤ b.capacity) (hN : 0 < N) (hmem : k ∉ b.values) :
    (Bucket.insert N b k).1 = (b.values.length, true) ∧
    (Bucket.insert N b k).2.values = b.values ++ [k] ∧
    (Bucket.insert N b k).2.values.length ≤ (Bucket.insert N b k).2.capacity := by
  have heq : b.index_of k = b.capacity := (Bucket.index_of_eq_capacity_iff b k hle).mpr hmem
  by_cases hge : b.values.length ≥ b.capacity
  · have hins : Bucket.insert N b k =
        ((b.values.length, true),
          { capacity := b.values.length + N, values := b.values ++ [k] }) := by
      unfold Bucket.insert
      simp [heq, hge, Bucket.expand]
    rw [hins]
    refine ⟨rfl, rfl, ?_⟩
    simp only [List.length_append, List.length_singleton]
    omega
  · have hins : Bucket.insert N b k =
        ((b.values.length, true), { b with values := b.values ++ [k] }) := by
      unfold Bucket.insert
      simp [heq, hge]
    rw [hins]
    refine ⟨rfl, rfl, ?_⟩
    simp only [List.length_append, List.length_singleton]
    omega

theorem Bucket.erase_not_mem {α : Type} [DecidableEq α] (b : Bucket α) (k : α)
    (hle : b.values.length ≤ b.capacity) (hmem : k ∉ b.values) :
    b.erase k = (0, b) := by
  unfold Bucket.erase
  simp [(Bucket.index_of_eq_capacity_iff b k hle).mpr hmem]

theorem Bucket.erase_mem_spec {α : Type} [DecidableEq α] (b : Bucket α) (k : α)
    (hle : b.values.length ≤ b.capacity) (hnd : b.values.Nodup) (hmem : k ∈ b.values) :
    (b.erase k).1 = 1 ∧
    (b.erase k).2.capacity = b.capacity ∧
    (b.erase k).2.values.length + 1 = b.values.length ∧
    (b.erase k).2.values.Nodup ∧
    ∀ x, x ∈ (b.erase k).2.values ↔ x ∈ b.values ∧ x ≠ k := by
  obtain ⟨i, hscan⟩ : ∃ i, scanIdx k b.values = some i := by
    cases hs : scanIdx k b.values with
    | none => exact absurd hmem ((scanIdx_eq_none_iff k b.values).mp hs)
    | some i => exact ⟨i, rfl⟩
  obtain ⟨A, B, hAB, hA⟩ := scanIdx_eq_some_decomp hscan
  have hio : b.index_of k = A.length := by
    unfold Bucket.index_of
    rw [hscan, hA]
    rfl
  have hlt : A.length < b.values.length := by
    rw [hAB]
    simp only [List.length_append, List.length_cons]
    omega
  have hne : ¬ (A.length = b.capacity) := by omega
  have herase : b.erase k = (1, { b with values := swapRemove b.values A.length }) := by
    unfold Bucket.erase
    simp [hio, hne]
  obtain ⟨hlen, hnd2, hmem2⟩ := swapRemove_decomp A B k (hAB ▸ hnd)
  rw [herase]
  refine ⟨rfl, rfl, ?_, ?_, ?_⟩
  · simpa [hAB] using hlen
  · simpa [hAB] using hnd2
  · intro x
    rw [hAB]
    exact hmem2 x

/-! ### Directory access lemmas -/

/-- The bucket at directory position `i` (the default is irrelevant: every
use is guarded by `i < st.table.length`). -/
def ADS_set.bkt {α : Type} (st : ADS_set α) (i : Nat) : Bucket α :=
  st.table.getD i ⟨[], 0⟩

theorem getD_eq_getElemD {α : Type} (l : List α) (i : Nat) (d : α) :
    l.getD i d = (l[i]?).getD d := by
  rw [List.getD_eq_getD_get?, List.get?_eq_getElem?]

theorem getD_agree {α : Type} (l : List α) (i : Nat) (d1 d2 : α) (h : i < l.length) :
    l.getD i d1 = l.getD i d2 := by
  rw [getD_eq_getElemD, getD_eq_getElemD, List.getElem?_eq_getElem h]
  rfl

theorem getD_set_self {α : Type} (l : List α) (i : Nat) (b d : α) (h : i < l.length) :
    (l.set i b).getD i d = b := by
  rw [getD_eq_getElemD, List.getElem?_set_eq_of_lt b h]
  rfl

theorem getD_set_ne {α : Type} (l : List α) (i j : Nat) (b d : α) (hne : i ≠ j) :
    (l.set i b).getD j d = l.getD j d := by
  rw [getD_eq_getElemD, getD_eq_getElemD, List.getElem?_set_ne hne]

theorem getD_mem {α : Type} (l : List α) (i : Nat) (d : α) (h : i < l.length) :
    l.getD i d ∈ l := by
  rw [getD_eq_getElemD, List.getElem?_eq_getElem h]
  simp only [Option.getD_some]
  exact List.getElem_mem h

theorem sum_map_set {α : Type} (f : α → Nat) :
    ∀ (l : List α) (i : Nat) (b d : α), i < l.length →
      ((l.set i b).map f).sum + f (l.getD i d) = (l.map f).sum + f b
  | [], i, b, d, h => absurd h (by simp)
  | a :: l, 0, b, d, h => by
    simp only [List.set_cons_zero, List.map_cons, List.sum_cons, List.getD_cons_zero]
    omega
  | a :: l, i + 1, b, d, h => by
    have ih := sum_map_set f l i b d (by simpa using h)
    simp only [List.set_cons_succ, List.map_cons, List.sum_cons, List.getD_cons_succ]
    omega

/-! ### The reachable-state invariant -/

/-- Invariant of every reachable `ADS_set` state: the directory length is
`2^d` (with split pointer 0) or `2^(d+1)` (with split pointer at most
`2^d`), `n` is the total of the bucket sizes, every stored value sits in
the bucket `bucket_index` computes for it, and every bucket is duplicate
free with its size at most its capacity. -/
def ADS_set.Inv {α : Type} (hash : α → Nat) (N : Nat) (st : ADS_set α) : Prop :=
  0 < N ∧
  ((st.table.length = 2 ^ st.split_round ∧ st.table_split_index = 0) ∨
    (st.table.length = 2 ^ (st.split_round + 1) ∧
      st.table_split_index ≤ 2 ^ st.split_round)) ∧
  st.table_items_size = (st.table.map fun b => b.values.length).sum ∧
  (∀ i, i < st.table.length → ∀ x, x ∈ (ADS_set.bkt st i).values →
    ADS_set.bucket_index hash st x = i) ∧
  ∀ b ∈ st.table, b.values.Nodup ∧ b.values.length ≤ b.capacity

theorem mem_contents_iff {α : Type} (st : ADS_set α) (x : α) :
    x ∈ ADS_set.contents st ↔
      ∃ i, i < st.table.length ∧ x ∈ (ADS_set.bkt st i).values := by
  unfold ADS_set.contents ADS_set.bkt
  rw [List.mem_flatten]
  constructor
  · rintro ⟨l, hl, hx⟩
    rw [List.mem_map] at hl
    obtain ⟨b, hb, rfl⟩ := hl
    rw [List.mem_iff_getElem] at hb
    obtain ⟨i, hi, rfl⟩ := hb
    refine ⟨i, hi, ?_⟩
    rw [getD_eq_getElemD, List.getElem?_eq_getElem hi]
    simpa using hx
  · rintro ⟨i, hi, hx⟩
    refine ⟨(st.table.getD i ⟨[], 0⟩).values, ?_, hx⟩
    rw [List.mem_map]
    exact ⟨st.table.getD i ⟨[], 0⟩, getD_mem _ _ _ hi, rfl⟩

theorem contents_length {α : Type} (st : ADS_set α) :
    (ADS_set.contents st).length = (st.table.map fun b => b.values.length).sum := by
  unfold ADS_set.contents
  rw [List.length_flatten, List.map_map]
  rfl

theorem ADS_set.bucket_index_lt {α : Type} (hash : α → Nat) (N : Nat) (st : ADS_set α)
    (k : α) (hInv : ADS_set.Inv hash N st) :
    ADS_set.bucket_index hash st k < st.table.length := by
  obtain ⟨-, hshape, -⟩ := hInv
  have hpow : (0:Nat) < 2 ^ st.split_round := Nat.pos_pow_of_pos _ (by norm_num)
  have hpow1 : (0:Nat) < 2 ^ (st.split_round + 1) := Nat.pos_pow_of_pos _ (by norm_num)
  have hm : hash k % 2 ^ st.split_round < 2 ^ st.split_round := Nat.mod_lt _ hpow
  have hm1 : hash k % 2 ^ (st.split_round + 1) < 2 ^ (st.split_round + 1) :=
    Nat.mod_lt _ hpow1
  have hle2 : (2:Nat) ^ st.split_round ≤ 2 ^ (st.split_round + 1) :=
    Nat.pow_le_pow_right (by norm_num) (by omega)
  simp only [ADS_set.bucket_index, ADS_set.h, ADS_set.g]
  by_cases hlt : hash k % 2 ^ st.split_round < st.table_split_index
  · simp only [hlt, if_true]
    rcases hshape with ⟨hlen, hs⟩ | ⟨hlen, hs⟩ <;> omega
  · simp only [hlt, if_false]
    rcases hshape with ⟨hlen, hs⟩ | ⟨hlen, hs⟩ <;> omega

theorem ADS_set.Inv_init {α : Type} (hash : α → Nat) (N : Nat) (hN : 0 < N) :
    ADS_set.Inv hash N (ADS_set.init α N) := by
  refine ⟨hN, Or.inl ⟨by simp [ADS_set.init], rfl⟩,
    by simp [ADS_set.init, Bucket.empty], ?_, ?_⟩
  · intro i hi x hx
    have hi2 : i < 2 := by simpa [ADS_set.init] using hi
    have : ADS_set.bkt (ADS_set.init α N) i = Bucket.empty α N := by
      unfold ADS_set.bkt ADS_set.init
      rw [getD_eq_getElemD, List.getElem?_eq_getElem (by simpa using hi2)]
      interval_cases i <;> rfl
    rw [this] at hx
    exact absurd hx (by simp [Bucket.empty])
  · intro b hb
    have : b = Bucket.empty α N := by
      simpa [ADS_set.init] using (List.eq_of_mem_replicate hb)
    subst this
    exact ⟨by simp [Bucket.empty], by simp [Bucket.empty]⟩

theorem set_getD_self {α : Type} :
    ∀ (l : List α) (i : Nat) (d : α), l.set i (l.getD i d) = l
  | [], _, _ => by simp
  | _ :: _, 0, _ => rfl
  | a :: l, i + 1, d => by
    simp only [List.set_cons_succ, List.getD_cons_succ]
    rw [set_getD_self l i d]

theorem ADS_set.bucket_index_eq {α : Type} (hash : α → Nat) (st : ADS_set α) (x : α) :
    ADS_set.bucket_index hash st x =
      (if hash x % 2 ^ st.split_round < st.table_split_index
        then hash x % 2 ^ (st.split_round + 1)
        else hash x % 2 ^ st.split_round) := rfl

theorem ADS_set.bucket_index_congr {α : Type} (hash : α → Nat) (st st' : ADS_set α)
    (x : α) (hd : st'.split_round = st.split_round)
    (hs : st'.table_split_index = st.table_split_index) :
    ADS_set.bucket_index hash st' x = ADS_set.bucket_index hash st x := by
  simp [ADS_set.bucket_index, ADS_set.h, ADS_set.g, hd, hs]

theorem ADS_set.mem_target_iff {α : Type} [DecidableEq α] (hash : α → Nat) (N : Nat)
    (st : ADS_set α) (k : α) (hInv : ADS_set.Inv hash N st) :
    k ∈ (st.table.getD (ADS_set.bucket_index hash st k) (Bucket.empty α N)).values ↔
      k ∈ ADS_set.contents st := by
  have hidx : ADS_set.bucket_index hash st k < st.table.length :=
    ADS_set.bucket_index_lt hash N st k hInv
  have hbkt : st.table.getD (ADS_set.bucket_index hash st k) (Bucket.empty α N) =
      ADS_set.bkt st (ADS_set.bucket_index hash st k) :=
    getD_agree _ _ _ _ hidx
  constructor
  · intro hk
    rw [mem_contents_iff]
    exact ⟨ADS_set.bucket_index hash st k, hidx, by rwa [← hbkt]⟩
  · intro hk
    rw [mem_contents_iff] at hk
    obtain ⟨i, hi, hki⟩ := hk
    have := hInv.2.2.2.1 i hi k hki
    rw [hbkt, this]
    exact hki

theorem ADS_set.count_spec {α : Type} [DecidableEq α] (hash : α → Nat) (N : Nat)
    (st : ADS_set α) (k : α) (hInv : ADS_set.Inv hash N st) :
    ADS_set.count hash N st k = if k ∈ ADS_set.contents st then 1 else 0 := by
  have hidx : ADS_set.bucket_index hash st k < st.table.length :=
    ADS_set.bucket_index_lt hash N st k hInv
  have hmem : st.table.getD (ADS_set.bucket_index hash st k) (Bucket.empty α N) ∈
      st.table := getD_mem _ _ _ hidx
  have hbp := hInv.2.2.2.2 _ hmem
  unfold ADS_set.count ADS_set.bucket_at
  rw [Bucket.count_eval _ _ hbp.2]
  by_cases hc : k ∈ ADS_set.contents st
  · rw [if_pos ((ADS_set.mem_target_iff hash N st k hInv).mpr hc), if_pos hc]
  · rw [if_neg (fun hx => hc ((ADS_set.mem_target_iff hash N st k hInv).mp hx)), if_neg hc]

theorem ADS_set.insert_table_spec {α : Type} [DecidableEq α] (hash : α → Nat) (N : Nat)
    (st1 st2 : ADS_set α) (k : α) (r : (Nat × Bool) × Bucket α)
    (hInv : ADS_set.Inv hash N st1)
    (hr : r = Bucket.insert N
      (st1.table.getD (ADS_set.bucket_index hash st1 k) (Bucket.empty α N)) k)
    (hst2 : st2 = { st1 with
        table := st1.table.set (ADS_set.bucket_index hash st1 k) r.2
        table_items_size :=
          if r.1.2 then st1.table_items_size + 1 else st1.table_items_size }) :
    ADS_set.Inv hash N st2 ∧
    (∀ x, x ∈ ADS_set.contents st2 ↔ x ∈ ADS_set.contents st1 ∨ x = k) ∧
    (r.1.2 = true ↔ k ∉ ADS_set.contents st1) := by
  obtain ⟨hN, hshape, hsum, hplace, hbuckets⟩ := hInv
  have hInv' : ADS_set.Inv hash N st1 := ⟨hN, hshape, hsum, hplace, hbuckets⟩
  set idx := ADS_set.bucket_index hash st1 k with hidxdef
  set b := st1.table.getD idx (Bucket.empty α N) with hbdef
  have hidx : idx < st1.table.length := ADS_set.bucket_index_lt hash N st1 k hInv'
  have hbmem : b ∈ st1.table := getD_mem _ _ _ hidx
  have hbp := hbuckets b hbmem
  have hkiff : k ∈ b.values ↔ k ∈ ADS_set.contents st1 :=
    ADS_set.mem_target_iff hash N st1 k hInv'
  by_cases hk : k ∈ b.values
  · -- key already stored: the bucket, and hence the whole state, is unchanged
    have hrval : r = ((b.index_of k, false), b) := by
      rw [hr, Bucket.insert_mem_spec N b k hbp.2 hk]
    have hset : st1.table.set idx b = st1.table := by
      rw [hbdef]
      exact set_getD_self st1.table idx (Bucket.empty α N)
    have hst2' : st2 = st1 := by
      rw [hst2, hrval]
      simp only [Bool.false_eq_true, if_false]
      rw [hset]
    subst hst2'
    refine ⟨hInv', fun x => ?_, ?_⟩
    · constructor
      · exact fun hx => Or.inl hx
      · rintro (hx | rfl)
        · exact hx
        · exact hkiff.mp hk
    · rw [hrval]
      simp only [Bool.false_eq_true, false_iff, not_not]
      exact hkiff.mp hk
  · -- new key: it is appended to its target bucket
    have hins := Bucket.insert_not_mem_spec N b k hbp.2 hN hk
    have hr12 : r.1.2 = true := by rw [hr, hins.1]
    have hrv2 : r.2.values = b.values ++ [k] := by rw [hr]; exact hins.2.1
    have hrlen2 : r.2.values.length ≤ r.2.capacity := by rw [hr]; exact hins.2.2
    have hlen2 : st2.table.length = st1.table.length := by rw [hst2]; simp
    have hd2 : st2.split_round = st1.split_round := by rw [hst2]
    have hs2 : st2.table_split_index = st1.table_split_index := by rw [hst2]
    have hcongr : ∀ x, ADS_set.bucket_index hash st2 x = ADS_set.bucket_index hash st1 x :=
      fun x => ADS_set.bucket_index_congr hash st1 st2 x hd2 hs2
    have hbkt1_idx : ADS_set.bkt st1 idx = b := by
      unfold ADS_set.bkt
      rw [hbdef]
      exact getD_agree _ _ _ _ hidx
    have hbkt_eq : ∀ j, j ≠ idx → ADS_set.bkt st2 j = ADS_set.bkt st1 j := by
      intro j hj
      unfold ADS_set.bkt
      rw [hst2]
      exact getD_set_ne _ _ _ _ _ (fun hc => hj (hc.symm))
    have hbkt_idx : ADS_set.bkt st2 idx = r.2 := by
      unfold ADS_set.bkt
      rw [hst2]
      exact getD_set_self _ _ _ _ hidx
    have hn2 : st2.table_items_size = st1.table_items_size + 1 := by
      rw [hst2, hr12]
      simp
    refine ⟨⟨hN, ?_, ?_, ?_, ?_⟩, fun x => ?_, ?_⟩
    · rw [hlen2, hd2, hs2]
      exact hshape
    · have hsets := sum_map_set (fun bb => bb.values.length) st1.table idx r.2
        (Bucket.empty α N) hidx
      rw [← hbdef] at hsets
      beta_reduce at hsets
      have hfr : r.2.values.length = b.values.length + 1 := by rw [hrv2]; simp
      rw [hn2, hsum]
      have htb : st2.table = st1.table.set idx r.2 := by rw [hst2]
      rw [htb]
      omega
    · intro i hi x hx
      rw [hcongr x]
      by_cases hji : i = idx
      · subst hji
        rw [hbkt_idx, hrv2] at hx
        rcases List.mem_append.mp hx with hx | hx
        · exact hplace idx hidx x (by rw [hbkt1_idx]; exact hx)
        · have hxk : x = k := by simpa using hx
          subst hxk
          rfl
      · rw [hbkt_eq i hji] at hx
        exact hplace i (by rwa [hlen2] at hi) x hx
    · intro b' hb'
      have htb : st2.table = st1.table.set idx r.2 := by rw [hst2]
      rw [htb] at hb'
      rcases List.mem_or_eq_of_mem_set hb' with hb' | rfl
      · exact hbuckets b' hb'
      · refine ⟨?_, hrlen2⟩
        rw [hrv2, List.nodup_append]
        exact ⟨hbp.1, List.nodup_singleton k, by simpa using hk⟩
    · rw [mem_contents_iff, mem_contents_iff]
      constructor
      · rintro ⟨i, hi, hx⟩
        by_cases hji : i = idx
        · subst hji
          rw [hbkt_idx, hrv2] at hx
          rcases List.mem_append.mp hx with hx | hx
          · exact Or.inl ⟨idx, hidx, by rw [hbkt1_idx]; exact hx⟩
          · exact Or.inr (by simpa using hx)
        · rw [hbkt_eq i hji] at hx
          exact Or.inl ⟨i, by rwa [hlen2] at hi, hx⟩
      · rintro (⟨i, hi, hx⟩ | rfl)
        · by_cases hji : i = idx
          · subst hji
            refine ⟨idx, by rwa [hlen2], ?_⟩
            rw [hbkt_idx, hrv2]
            refine List.mem_append_left _ ?_
            rw [hbkt1_idx] at hx
            exact hx
          · refine ⟨i, by rwa [hlen2], ?_⟩
            rw [hbkt_eq i hji]
            exact hx
        · refine ⟨idx, by rwa [hlen2], ?_⟩
          rw [hbkt_idx, hrv2]
          exact List.mem_append_right _ (by simp)
    · rw [hr12]
      simp only [true_iff]
      exact fun hc => hk (hkiff.mpr hc)

theorem ADS_set.erase_spec {α : Type} [DecidableEq α] (hash : α → Nat) (N : Nat)
    (st : ADS_set α) (k : α) (hInv : ADS_set.Inv hash N st) :
    ADS_set.Inv hash N (ADS_set.erase hash N st k).2 ∧
    (∀ x, x ∈ ADS_set.contents (ADS_set.erase hash N st k).2 ↔
      x ∈ ADS_set.contents st ∧ x ≠ k) ∧
    (ADS_set.erase hash N st k).1 = (if k ∈ ADS_set.contents st then 1 else 0) := by
  obtain ⟨hN, hshape, hsum, hplace, hbuckets⟩ := hInv
  have hInv' : ADS_set.Inv hash N st := ⟨hN, hshape, hsum, hplace, hbuckets⟩
  set idx := ADS_set.bucket_index hash st k with hidxdef
  set b := st.table.getD idx (Bucket.empty α N) with hbdef
  have hidx : idx < st.table.length := ADS_set.bucket_index_lt hash N st k hInv'
  have hbmem : b ∈ st.table := getD_mem _ _ _ hidx
  have hbp := hbuckets b hbmem
  have hkiff : k ∈ b.values ↔ k ∈ ADS_set.contents st :=
    ADS_set.mem_target_iff hash N st k hInv'
  have hbkt1_idx : ADS_set.bkt st idx = b := by
    unfold ADS_set.bkt
    rw [hbdef]
    exact getD_agree _ _ _ _ hidx
  by_cases hk : k ∈ b.values
  · -- the key is stored: one slot disappears from its bucket
    obtain ⟨he1, hecap, helen, hend, hemem⟩ := Bucket.erase_mem_spec b k hbp.2 hbp.1 hk
    have heq : ADS_set.erase hash N st k =
        ((b.erase k).1, { st with
          table := st.table.set idx (b.erase k).2
          table_items_size := st.table_items_size - (b.erase k).1 }) := by
      unfold ADS_set.erase
      rfl
    set b' := (b.erase k).2 with hb'def
    set st2 := { st with
      table := st.table.set idx b'
      table_items_size := st.table_items_size - (b.erase k).1 } with hst2def
    have heq2 : ADS_set.erase hash N st k = ((b.erase k).1, st2) := heq
    have hbkt_eq : ∀ j, j ≠ idx → ADS_set.bkt st2 j = ADS_set.bkt st j := by
      intro j hj
      unfold ADS_set.bkt
      rw [hst2def]
      exact getD_set_ne _ _ _ _ _ (fun hc => hj (hc.symm))
    have hbkt_idx : ADS_set.bkt st2 idx = b' := by
      unfold ADS_set.bkt
      rw [hst2def]
      exact getD_set_self _ _ _ _ hidx
    have honly : ∀ j, j < st.table.length → k ∈ (ADS_set.bkt st j).values → j = idx := by
      intro j hj hkj
      rw [← hplace j hj k hkj, hidxdef]
    have hlen2 : st2.table.length = st.table.length := by rw [hst2def]; simp
    have hsum2 : st2.table_items_size =
        (st2.table.map fun bb => bb.values.length).sum := by
      have hsets := sum_map_set (fun bb => bb.values.length) st.table idx b'
        (Bucket.empty α N) hidx
      rw [← hbdef] at hsets
      beta_reduce at hsets
      have hshow : st2.table_items_size = st.table_items_size - (b.erase k).1 := by
        rw [hst2def]
      have htab : st2.table = st.table.set idx b' := by rw [hst2def]
      rw [hshow, htab, he1]
      have hb'len : b'.values.length + 1 = b.values.length := helen
      omega
    have hplace2 : ∀ i, i < st2.table.length → ∀ x, x ∈ (ADS_set.bkt st2 i).values →
        ADS_set.bucket_index hash st2 x = i := by
      intro i hi x hx
      have hi' : i < st.table.length := by rwa [hlen2] at hi
      have hcongr : ADS_set.bucket_index hash st2 x = ADS_set.bucket_index hash st x :=
        ADS_set.bucket_index_congr hash st st2 x rfl rfl
      rw [hcongr]
      by_cases hji : i = idx
      · subst hji
        rw [hbkt_idx] at hx
        have hxb : x ∈ b.values := ((hemem x).mp hx).1
        exact hplace idx hidx x (by rw [hbkt1_idx]; exact hxb)
      · rw [hbkt_eq i hji] at hx
        exact hplace i hi' x hx
    have hbuckets2 : ∀ bb ∈ st2.table, bb.values.Nodup ∧
        bb.values.length ≤ bb.capacity := by
      intro bb hbb
      have htab : st2.table = st.table.set idx b' := by rw [hst2def]
      rw [htab] at hbb
      rcases List.mem_or_eq_of_mem_set hbb with hbb | rfl
      · exact hbuckets bb hbb
      · exact ⟨hend, by omega⟩
    have hshape2 : st2.table.length = 2 ^ st2.split_round ∧
        st2.table_split_index = 0 ∨
        st2.table.length = 2 ^ (st2.split_round + 1) ∧
          st2.table_split_index ≤ 2 ^ st2.split_round := by
      rw [hlen2]
      exact hshape
    have hInv2 : ADS_set.Inv hash N st2 := ⟨hN, hshape2, hsum2, hplace2, hbuckets2⟩
    have hmem2 : ∀ x, x ∈ ADS_set.contents st2 ↔
        x ∈ ADS_set.contents st ∧ x ≠ k := by
      intro x
      rw [mem_contents_iff, mem_contents_iff]
      constructor
      · rintro ⟨i, hi, hx⟩
        have hi' : i < st.table.length := by rwa [hlen2] at hi
        by_cases hji : i = idx
        · subst hji
          rw [hbkt_idx] at hx
          obtain ⟨hxb, hxk⟩ := (hemem x).mp hx
          exact ⟨⟨idx, hidx, by rw [hbkt1_idx]; exact hxb⟩, hxk⟩
        · rw [hbkt_eq i hji] at hx
          refine ⟨⟨i, hi', hx⟩, ?_⟩
          intro hxk
          subst hxk
          exact hji (honly i hi' hx)
      · rintro ⟨⟨i, hi, hx⟩, hxk⟩
        by_cases hji : i = idx
        · subst hji
          refine ⟨idx, by rwa [hlen2], ?_⟩
          rw [hbkt_idx]
          rw [hbkt1_idx] at hx
          exact (hemem x).mpr ⟨hx, hxk⟩
        · refine ⟨i, by rwa [hlen2], ?_⟩
          rw [hbkt_eq i hji]
          exact hx
    rw [heq2, he1]
    exact ⟨hInv2, hmem2, by rw [if_pos (hkiff.mp hk)]⟩
  · -- the key is absent: the state is unchanged
    have he : b.erase k = (0, b) := Bucket.erase_not_mem b k hbp.2 hk
    have heq : ADS_set.erase hash N st k = (0, st) := by
      have heq0 : ADS_set.erase hash N st k =
          ((b.erase k).1, { st with
            table := st.table.set idx (b.erase k).2
            table_items_size := st.table_items_size - (b.erase k).1 }) := by
        unfold ADS_set.erase
        rfl
      rw [heq0, he]
      have hset : st.table.set idx b = st.table := by
        rw [hbdef]
        exact set_getD_self st.table idx (Bucket.empty α N)
      simp [hset]
    rw [heq]
    have hknot : k ∉ ADS_set.contents st := fun hc => hk (hkiff.mpr hc)
    refine ⟨hInv', fun x => ?_, by rw [if_neg hknot]⟩
    constructor
    · intro hx
      refine ⟨hx, ?_⟩
      intro hxk
      subst hxk
      exact hknot hx
    · exact fun hx => hx.1

theorem getD_append_left' {α : Type} (l1 l2 : List α) (i : Nat) (d : α)
    (h : i < l1.length) :
    (l1 ++ l2).getD i d = l1.getD i d := by
  rw [getD_eq_getElemD, getD_eq_getElemD, List.getElem?_append_left h]

theorem getD_append_replicate {α : Type} (l : List α) (m : Nat) (e d : α) (i : Nat)
    (h1 : l.length ≤ i) (h2 : i < l.length + m) :
    (l ++ List.replicate m e).getD i d = e := by
  rw [getD_eq_getElemD, List.getElem?_append_right h1, List.getElem?_replicate]
  rw [if_pos (by omega)]
  rfl

theorem ADS_set.reserve_spec {α : Type} [DecidableEq α] (N : Nat)
    (st : ADS_set α) (m : Nat) (hm : st.table.length < m) :
    (ADS_set.reserve N st m).split_round = st.split_round ∧
    (ADS_set.reserve N st m).table_split_index = st.table_split_index ∧
    (ADS_set.reserve N st m).table_items_size = st.table_items_size ∧
    (ADS_set.reserve N st m).split_count = st.split_count ∧
    (ADS_set.reserve N st m).table.length = m ∧
    (∀ i, i < st.table.length →
      ADS_set.bkt (ADS_set.reserve N st m) i = ADS_set.bkt st i) ∧
    (∀ i, st.table.length ≤ i → i < m →
      ADS_set.bkt (ADS_set.reserve N st m) i = Bucket.empty α N) ∧
    (((ADS_set.reserve N st m).table.map fun b => b.values.length).sum =
      (st.table.map fun b => b.values.length).sum) ∧
    (∀ b ∈ (ADS_set.reserve N st m).table, b ∈ st.table ∨ b = Bucket.empty α N) := by
  have hres : ADS_set.reserve N st m = { st with
      table := st.table ++
        List.replicate (m - st.table.length) (Bucket.empty α N) } := by
    unfold ADS_set.reserve
    rw [if_neg (by omega)]
  rw [hres]
  refine ⟨rfl, rfl, rfl, rfl, by simp; omega, ?_, ?_, ?_, ?_⟩
  · intro i hi
    unfold ADS_set.bkt
    exact getD_append_left' _ _ _ _ hi
  · intro i h1 h2
    unfold ADS_set.bkt
    exact getD_append_replicate _ _ _ _ _ h1 (by simpa using by omega)
  · simp [List.map_append, List.sum_append, Bucket.empty]
  · intro b hb
    rcases List.mem_append.mp hb with hb | hb
    · exact Or.inl hb
    · exact Or.inr (List.eq_of_mem_replicate hb)

theorem ADS_set.split_pre_spec {α : Type} [DecidableEq α] (hash : α → Nat) (N : Nat)
    (st st1 st2 st3 : ADS_set α) (bucket : Bucket α)
    (hInv : ADS_set.Inv hash N st)
    (hst1 : st1 = (if st.table.length = 2 ^ st.split_round
        then ADS_set.reserve N st (st.table.length * 2) else st))
    (hbucket : bucket = st1.table.getD st1.table_split_index (Bucket.empty α N))
    (hst2 : st2 = { st1 with
        table := st1.table.set st1.table_split_index (Bucket.empty α N)
        table_items_size := st1.table_items_size - bucket.values.length
        split_count := st1.split_count + 1 })
    (hst3 : st3 = (if st2.table_split_index ≥ 2 ^ st.split_round
        then { st2 with table_split_index := 0, split_round := st2.split_round + 1 }
        else { st2 with table_split_index := st2.table_split_index + 1 })) :
    ADS_set.Inv hash N st3 ∧
    (∀ x, x ∈ ADS_set.contents st ↔ x ∈ ADS_set.contents st3 ∨ x ∈ bucket.values) := by
  obtain ⟨hN, hshape, hsum, hplace, hbuckets⟩ := hInv
  have hpow : (0:Nat) < 2 ^ st.split_round := Nat.pos_pow_of_pos _ (by norm_num)
  have hpowlt : (2:Nat) ^ st.split_round < 2 ^ (st.split_round + 1) :=
    Nat.pow_lt_pow_right (by norm_num) (Nat.lt_succ_self st.split_round)
  have hsle : st.table_split_index ≤ 2 ^ st.split_round := by
    rcases hshape with ⟨-, hs⟩ | ⟨-, hs⟩
    · omega
    · exact hs
  -- facts about st1
  have hF : st1.split_round = st.split_round ∧
      st1.table_split_index = st.table_split_index ∧
      st1.table_items_size = st.table_items_size ∧
      st1.table.length = 2 ^ (st.split_round + 1) ∧
      (∀ x, x ∈ ADS_set.contents st1 ↔ x ∈ ADS_set.contents st) ∧
      st1.table_items_size = (st1.table.map fun b => b.values.length).sum ∧
      (∀ i, i < st1.table.length → ∀ x, x ∈ (ADS_set.bkt st1 i).values →
        ADS_set.bucket_index hash st1 x = i) ∧
      (∀ b ∈ st1.table, b.values.Nodup ∧ b.values.length ≤ b.capacity) := by
    by_cases hdb : st.table.length = 2 ^ st.split_round
    · have hcase1 : st.table_split_index = 0 := by
        rcases hshape with ⟨-, hs⟩ | ⟨hlen, -⟩
        · exact hs
        · omega
      have hm : st.table.length < st.table.length * 2 := by omega
      obtain ⟨r1, r2, r3, r4, r5, r6, r7, r8, r9⟩ := ADS_set.reserve_spec N st
        (st.table.length * 2) hm
      have hst1' : st1 = ADS_set.reserve N st (st.table.length * 2) := by
        rw [hst1, if_pos hdb]
      rw [hst1']
      have hlen1 : (ADS_set.reserve N st (st.table.length * 2)).table.length =
          2 ^ (st.split_round + 1) := by
        rw [r5]
        rw [hdb]
        ring
      have hcongr : ∀ x, ADS_set.bucket_index hash (ADS_set.reserve N st
          (st.table.length * 2)) x = ADS_set.bucket_index hash st x :=
        fun x => ADS_set.bucket_index_congr hash st _ x r1 r2
      have hcont : ∀ x, x ∈ ADS_set.contents (ADS_set.reserve N st
          (st.table.length * 2)) ↔ x ∈ ADS_set.contents st := by
        intro x
        rw [mem_contents_iff, mem_contents_iff]
        constructor
        · rintro ⟨i, hi, hx⟩
          by_cases hilt : i < st.table.length
          · rw [r6 i hilt] at hx
            exact ⟨i, hilt, hx⟩
          · rw [r7 i (by omega) (by omega)] at hx
            exact absurd hx (by simp [Bucket.empty])
        · rintro ⟨i, hi, hx⟩
          refine ⟨i, by omega, ?_⟩
          rw [r6 i hi]
          exact hx
      refine ⟨r1, r2, r3, hlen1, hcont, ?_, ?_, ?_⟩
      · rw [r3, r8]
        exact hsum
      · intro i hi x hx
        rw [hcongr x]
        by_cases hilt : i < st.table.length
        · rw [r6 i hilt] at hx
          exact hplace i hilt x hx
        · rw [r7 i (by omega) (by rw [← r5]; exact hi)] at hx
          exact absurd hx (by simp [Bucket.empty])
      · intro b hb
        rcases r9 b hb with hb | rfl
        · exact hbuckets b hb
        · exact ⟨by simp [Bucket.empty], by simp [Bucket.empty]⟩
    · have hst1' : st1 = st := by rw [hst1, if_neg hdb]
      rw [hst1']
      have hlen1 : st.table.length = 2 ^ (st.split_round + 1) := by
        rcases hshape with ⟨hlen, -⟩ | ⟨hlen, -⟩
        · exact absurd hlen hdb
        · exact hlen
      exact ⟨rfl, rfl, rfl, hlen1, fun x => Iff.rfl, hsum, hplace, hbuckets⟩
  obtain ⟨hd1, hs1, hn1, hlen1, hcont1, hsum1, hplace1, hbuckets1⟩ := hF
  have hslt : st1.table_split_index < st1.table.length := by
    rw [hs1, hlen1]
    omega
  -- facts about st2
  have hbucket' : bucket = ADS_set.bkt st1 st1.table_split_index := by
    rw [hbucket]
    unfold ADS_set.bkt
    exact getD_agree _ _ _ _ hslt
  have hd2 : st2.split_round = st1.split_round := by rw [hst2]
  have hs2 : st2.table_split_index = st1.table_split_index := by rw [hst2]
  have hlen2 : st2.table.length = st1.table.length := by rw [hst2]; simp
  have htab2 : st2.table = st1.table.set st1.table_split_index (Bucket.empty α N) := by
    rw [hst2]
  have hbkt2_s : ADS_set.bkt st2 st1.table_split_index = Bucket.empty α N := by
    unfold ADS_set.bkt
    rw [htab2]
    exact getD_set_self _ _ _ _ hslt
  have hbkt2_ne : ∀ j, j ≠ st1.table_split_index →
      ADS_set.bkt st2 j = ADS_set.bkt st1 j := by
    intro j hj
    unfold ADS_set.bkt
    rw [htab2]
    exact getD_set_ne _ _ _ _ _ (fun hc => hj (hc.symm))
  have hsum2 : st2.table_items_size = (st2.table.map fun b => b.values.length).sum := by
    have hsets := sum_map_set (fun bb => bb.values.length) st1.table
      st1.table_split_index (Bucket.empty α N) (Bucket.empty α N) hslt
    rw [← hbucket] at hsets
    beta_reduce at hsets
    have hn2 : st2.table_items_size = st1.table_items_size - bucket.values.length := by
      rw [hst2]
    rw [hn2, htab2, hsum1]
    have hemp : (Bucket.empty α N).values.length = 0 := rfl
    omega
  have hcongr2 : ∀ x, ADS_set.bucket_index hash st2 x =
      ADS_set.bucket_index hash st1 x :=
    fun x => ADS_set.bucket_index_congr hash st1 st2 x hd2 hs2
  have hplace2 : ∀ i, i < st2.table.length → ∀ x, x ∈ (ADS_set.bkt st2 i).values →
      ADS_set.bucket_index hash st2 x = i := by
    intro i hi x hx
    rw [hcongr2 x]
    by_cases hji : i = st1.table_split_index
    · subst hji
      rw [hbkt2_s] at hx
      exact absurd hx (by simp [Bucket.empty])
    · rw [hbkt2_ne i hji] at hx
      exact hplace1 i (by rwa [hlen2] at hi) x hx
  have hbuckets2 : ∀ b ∈ st2.table, b.values.Nodup ∧ b.values.length ≤ b.capacity := by
    intro b hb
    rw [htab2] at hb
    rcases List.mem_or_eq_of_mem_set hb with hb | rfl
    · exact hbuckets1 b hb
    · exact ⟨by simp [Bucket.empty], by simp [Bucket.empty]⟩
  have hcont2 : ∀ x, x ∈ ADS_set.contents st1 ↔
      x ∈ ADS_set.contents st2 ∨ x ∈ bucket.values := by
    intro x
    rw [mem_contents_iff, mem_contents_iff]
    constructor
    · rintro ⟨i, hi, hx⟩
      by_cases hji : i = st1.table_split_index
      · subst hji
        rw [← hbucket'] at hx
        exact Or.inr hx
      · exact Or.inl ⟨i, by rwa [hlen2], by rwa [hbkt2_ne i hji]⟩
    · rintro (⟨i, hi, hx⟩ | hx)
      · by_cases hji : i = st1.table_split_index
        · subst hji
          rw [hbkt2_s] at hx
          exact absurd hx (by simp [Bucket.empty])
        · rw [hbkt2_ne i hji] at hx
          exact ⟨i, by rwa [hlen2] at hi, hx⟩
      · exact ⟨st1.table_split_index, hslt, by rwa [← hbucket']⟩
  -- facts about st3
  have htab3 : st3.table = st2.table := by
    rw [hst3]
    by_cases hadv : st2.table_split_index ≥ 2 ^ st.split_round
    · rw [if_pos hadv]
    · rw [if_neg hadv]
  have hn3 : st3.table_items_size = st2.table_items_size := by
    rw [hst3]
    by_cases hadv : st2.table_split_index ≥ 2 ^ st.split_round
    · rw [if_pos hadv]
    · rw [if_neg hadv]
  have hbkt3 : ∀ j, ADS_set.bkt st3 j = ADS_set.bkt st2 j := by
    intro j
    unfold ADS_set.bkt
    rw [htab3]
  have hcont3 : ∀ x, x ∈ ADS_set.contents st3 ↔ x ∈ ADS_set.contents st2 := by
    intro x
    rw [mem_contents_iff, mem_contents_iff]
    constructor
    · rintro ⟨i, hi, hx⟩
      exact ⟨i, by rwa [htab3] at hi, by rwa [hbkt3] at hx⟩
    · rintro ⟨i, hi, hx⟩
      exact ⟨i, by rwa [← htab3] at hi, by rw [hbkt3]; exact hx⟩
  -- the split-pointer advance keeps every surviving key's address
  have hstable : ∀ i x, i < st2.table.length → x ∈ (ADS_set.bkt st2 i).values →
      ADS_set.bucket_index hash st3 x = ADS_set.bucket_index hash st2 x := by
    intro i x hi hx
    have hine : i ≠ st1.table_split_index := by
      intro hc
      subst hc
      rw [hbkt2_s] at hx
      exact absurd hx (by simp [Bucket.empty])
    have hplaced : ADS_set.bucket_index hash st2 x = i := hplace2 i hi x hx
    have hmod : hash x % 2 ^ st.split_round < 2 ^ st.split_round := Nat.mod_lt _ hpow
    rw [hst3]
    by_cases hadv : st2.table_split_index ≥ 2 ^ st.split_round
    · rw [if_pos hadv]
      have hseq : st2.table_split_index = 2 ^ st.split_round := by
        rw [hs2, hs1]
        rw [hs2, hs1] at hadv
        omega
      have hlhs : ADS_set.bucket_index hash
          { st2 with table_split_index := 0, split_round := st2.split_round + 1 } x =
          hash x % 2 ^ (st2.split_round + 1) := by
        rw [ADS_set.bucket_index_eq]
        show (if hash x % 2 ^ (st2.split_round + 1) < 0
          then hash x % 2 ^ (st2.split_round + 1 + 1)
          else hash x % 2 ^ (st2.split_round + 1)) = hash x % 2 ^ (st2.split_round + 1)
        rw [if_neg (by omega)]
      have hrhs : ADS_set.bucket_index hash st2 x =
          hash x % 2 ^ (st2.split_round + 1) := by
        rw [ADS_set.bucket_index_eq]
        rw [if_pos (by rw [hseq, hd2, hd1]; exact hmod)]
      rw [hlhs, hrhs]
    · rw [if_neg hadv]
      have hlhs : ADS_set.bucket_index hash
          { st2 with table_split_index := st2.table_split_index + 1 } x =
          (if hash x % 2 ^ st2.split_round < st2.table_split_index + 1
            then hash x % 2 ^ (st2.split_round + 1)
            else hash x % 2 ^ st2.split_round) := by
        rw [ADS_set.bucket_index_eq]
      rw [hlhs, ADS_set.bucket_index_eq]
      by_cases hlt : hash x % 2 ^ st2.split_round < st2.table_split_index
      · rw [if_pos (by omega), if_pos hlt]
      · have hplaced' : (if hash x % 2 ^ st2.split_round < st2.table_split_index
            then hash x % 2 ^ (st2.split_round + 1)
            else hash x % 2 ^ st2.split_round) = i := by
          rw [← ADS_set.bucket_index_eq]
          exact hplaced
        rw [if_neg hlt] at hplaced'
        have hne2 : hash x % 2 ^ st2.split_round ≠ st2.table_split_index := by
          rw [hplaced', hs2]
          exact hine
        rw [if_neg (by omega), if_neg hlt]
  -- invariant of st3
  have hshape3 : st3.table.length = 2 ^ st3.split_round ∧ st3.table_split_index = 0 ∨
      st3.table.length = 2 ^ (st3.split_round + 1) ∧
        st3.table_split_index ≤ 2 ^ st3.split_round := by
    rw [hst3]
    by_cases hadv : st2.table_split_index ≥ 2 ^ st.split_round
    · rw [if_pos hadv]
      refine Or.inl ⟨?_, rfl⟩
      show st2.table.length = 2 ^ (st2.split_round + 1)
      rw [hlen2, hlen1, hd2, hd1]
    · rw [if_neg hadv]
      refine Or.inr ⟨?_, ?_⟩
      · show st2.table.length = 2 ^ (st2.split_round + 1)
        rw [hlen2, hlen1, hd2, hd1]
      · show st2.table_split_index + 1 ≤ 2 ^ st2.split_round
        rw [hd2, hd1]
        omega
  have hsum3 : st3.table_items_size = (st3.table.map fun b => b.values.length).sum := by
    rw [hn3, htab3]
    exact hsum2
  have hplace3 : ∀ i, i < st3.table.length → ∀ x, x ∈ (ADS_set.bkt st3 i).values →
      ADS_set.bucket_index hash st3 x = i := by
    intro i hi x hx
    rw [hbkt3] at hx
    have hi2 : i < st2.table.length := by rwa [htab3] at hi
    rw [hstable i x hi2 hx]
    exact hplace2 i hi2 x hx
  have hbuckets3 : ∀ b ∈ st3.table, b.values.Nodup ∧ b.values.length ≤ b.capacity := by
    intro b hb
    rw [htab3] at hb
    exact hbuckets2 b hb
  refine ⟨⟨hN, hshape3, hsum3, hplace3, hbuckets3⟩, fun x => ?_⟩
  rw [← hcont1 x, hcont2 x, hcont3 x]

/-- Joint fuel induction: `insert`, `split` and the re-insertion loop all
preserve the invariant; `insert` adds exactly its key to the stored set
and reports `added` iff the key was absent; `split` leaves the stored set
unchanged; re-insertion adds exactly the drained keys. -/
theorem ADS_set.sim {α : Type} [DecidableEq α] (hash : α → Nat) (N : Nat) :
    ∀ fuel : Nat,
      (∀ st k r, ADS_set.Inv hash N st → ADS_set.insert hash N fuel st k = some r →
        ADS_set.Inv hash N r.1 ∧
        (∀ x, x ∈ ADS_set.contents r.1 ↔ x ∈ ADS_set.contents st ∨ x = k) ∧
        (r.2.2 = true ↔ k ∉ ADS_set.contents st)) ∧
      (∀ st st', ADS_set.Inv hash N st → ADS_set.split hash N fuel st = some st' →
        ADS_set.Inv hash N st' ∧
        (∀ x, x ∈ ADS_set.contents st' ↔ x ∈ ADS_set.contents st)) ∧
      (∀ l st st', ADS_set.Inv hash N st →
        ADS_set.reinsert hash N fuel st l = some st' →
        ADS_set.Inv hash N st' ∧
        (∀ x, x ∈ ADS_set.contents st' ↔ x ∈ ADS_set.contents st ∨ x ∈ l)) := by
  intro fuel
  induction fuel with
  | zero =>
    refine ⟨?_, ?_, ?_⟩
    · intro st k r hInv hrun
      rw [ADS_set.insert_zero] at hrun
      exact absurd hrun (by simp)
    · intro st st' hInv hrun
      rw [ADS_set.split_zero] at hrun
      exact absurd hrun (by simp)
    · intro l st st' hInv hrun
      cases l with
      | nil =>
        rw [ADS_set.reinsert_nil] at hrun
        have hst : st = st' := Option.some.inj hrun
        subst hst
        exact ⟨hInv, fun x => by simp⟩
      | cons k ks =>
        rw [ADS_set.reinsert_zero_cons] at hrun
        exact absurd hrun (by simp)
  | succ fuel ih =>
    refine ⟨?_, ?_, ?_⟩
    · -- insert (fuel + 1)
      intro st k r hInv hrun
      rw [ADS_set.insert_succ] at hrun
      by_cases hfull : (ADS_set.bucket_at hash N st k).full
      · rw [if_pos hfull] at hrun
        cases hsp : ADS_set.split hash N fuel st with
        | none =>
          rw [hsp] at hrun
          exact absurd hrun (by simp)
        | some st1 =>
          rw [hsp] at hrun
          obtain ⟨hInv1, hcont1⟩ := ih.2.1 st st1 hInv hsp
          have hbody : ({ st1 with
              table := st1.table.set (ADS_set.bucket_index hash st1 k)
                (Bucket.insert N (st1.table.getD (ADS_set.bucket_index hash st1 k)
                  (Bucket.empty α N)) k).2
              table_items_size :=
                if (Bucket.insert N (st1.table.getD (ADS_set.bucket_index hash st1 k)
                    (Bucket.empty α N)) k).1.2
                then st1.table_items_size + 1 else st1.table_items_size },
              (Bucket.insert N (st1.table.getD (ADS_set.bucket_index hash st1 k)
                (Bucket.empty α N)) k).1.1,
              (Bucket.insert N (st1.table.getD (ADS_set.bucket_index hash st1 k)
                (Bucket.empty α N)) k).1.2) = r := Option.some.inj hrun
          obtain ⟨hI2, hc2, hadd2⟩ := ADS_set.insert_table_spec hash N st1 _ k _ hInv1
            rfl rfl
          rw [← hbody]
          refine ⟨hI2, fun x => ?_, ?_⟩
          · rw [hc2 x, hcont1 x]
          · rw [hadd2, hcont1 k]
      · rw [if_neg hfull] at hrun
        have hbody : ({ st with
            table := st.table.set (ADS_set.bucket_index hash st k)
              (Bucket.insert N (st.table.getD (ADS_set.bucket_index hash st k)
                (Bucket.empty α N)) k).2
            table_items_size :=
              if (Bucket.insert N (st.table.getD (ADS_set.bucket_index hash st k)
                  (Bucket.empty α N)) k).1.2
              then st.table_items_size + 1 else st.table_items_size },
            (Bucket.insert N (st.table.getD (ADS_set.bucket_index hash st k)
              (Bucket.empty α N)) k).1.1,
            (Bucket.insert N (st.table.getD (ADS_set.bucket_index hash st k)
              (Bucket.empty α N)) k).1.2) = r := Option.some.inj hrun
        obtain ⟨hI2, hc2, hadd2⟩ := ADS_set.insert_table_spec hash N st _ k _ hInv
          rfl rfl
        rw [← hbody]
        exact ⟨hI2, hc2, hadd2⟩
    · -- split (fuel + 1)
      intro st st' hInv hrun
      rw [ADS_set.split_succ] at hrun
      obtain ⟨hI3, hcontU⟩ := ADS_set.split_pre_spec hash N st _ _ _ _ hInv
        rfl rfl rfl rfl
      obtain ⟨hI', hcont'⟩ := ih.2.2 _ _ st' hI3 hrun
      refine ⟨hI', fun x => ?_⟩
      rw [hcont' x, hcontU x]
    · -- reinsert (fuel + 1)
      intro l st st' hInv hrun
      cases l with
      | nil =>
        rw [ADS_set.reinsert_nil] at hrun
        have hst : st = st' := Option.some.inj hrun
        subst hst
        exact ⟨hInv, fun x => by simp⟩
      | cons k ks =>
        rw [ADS_set.reinsert_succ_cons] at hrun
        cases hins : ADS_set.insert hash N fuel st k with
        | none =>
          rw [hins] at hrun
          exact absurd hrun (by simp)
        | some rr =>
          rw [hins] at hrun
          have hrun2 : ADS_set.reinsert hash N fuel rr.1 ks = some st' := hrun
          obtain ⟨hI1, hc1, -⟩ := ih.1 st k rr hInv hins
          obtain ⟨hI', hc'⟩ := ih.2.2 ks rr.1 st' hI1 hrun2
          refine ⟨hI', fun x => ?_⟩
          rw [hc' x, hc1 x]
          simp only [List.mem_cons]
          tauto

/-! ### From single operations to operation sequences -/

theorem ADS_set.contents_nodup {α : Type} [DecidableEq α] (hash : α → Nat) (N : Nat)
    (st : ADS_set α) (hInv : ADS_set.Inv hash N st) :
    (ADS_set.contents st).Nodup := by
  unfold ADS_set.contents
  rw [List.nodup_flatten]
  constructor
  · intro l hl
    rw [List.mem_map] at hl
    obtain ⟨b, hb, rfl⟩ := hl
    exact (hInv.2.2.2.2 b hb).1
  · rw [List.pairwise_map, List.pairwise_iff_getElem]
    intro i j hi hj hij
    intro x hxi hxj
    have hbi : ADS_set.bkt st i = st.table[i] := by
      unfold ADS_set.bkt
      rw [getD_eq_getElemD, List.getElem?_eq_getElem hi]
      rfl
    have hbj : ADS_set.bkt st j = st.table[j] := by
      unfold ADS_set.bkt
      rw [getD_eq_getElemD, List.getElem?_eq_getElem hj]
      rfl
    have h1 := hInv.2.2.2.1 i hi x (by rw [hbi]; exact hxi)
    have h2 := hInv.2.2.2.1 j hj x (by rw [hbj]; exact hxj)
    omega

theorem ADS_set.items_eq_contents_length {α : Type} [DecidableEq α] (hash : α → Nat)
    (N : Nat) (st : ADS_set α) (hInv : ADS_set.Inv hash N st) :
    st.table_items_size = (ADS_set.contents st).length := by
  rw [contents_length]
  exact hInv.2.2.1

theorem length_eq_of_nodup_mem_iff {α : Type} [DecidableEq α] (l1 l2 : List α)
    (h1 : l1.Nodup) (h2 : l2.Nodup) (hm : ∀ x, x ∈ l1 ↔ x ∈ l2) :
    l1.length = l2.length := by
  rw [← List.toFinset_card_of_nodup h1, ← List.toFinset_card_of_nodup h2]
  congr 1
  ext x
  simp only [List.mem_toFinset]
  exact hm x

theorem modelIns_mem {α : Type} [DecidableEq α] (l : List α) (k x : α) :
    x ∈ modelIns l k ↔ x ∈ l ∨ x = k := by
  unfold modelIns
  by_cases hk : k ∈ l
  · rw [if_pos hk]
    constructor
    · exact fun hx => Or.inl hx
    · rintro (hx | rfl)
      · exact hx
      · exact hk
  · rw [if_neg hk]
    simp

theorem modelIns_nodup {α : Type} [DecidableEq α] (l : List α) (k : α)
    (h : l.Nodup) : (modelIns l k).Nodup := by
  unfold modelIns
  by_cases hk : k ∈ l
  · rwa [if_pos hk]
  · rw [if_neg hk, List.nodup_append]
    exact ⟨h, List.nodup_singleton k, by simpa using hk⟩

theorem modelRun_nodup {α : Type} [DecidableEq α] :
    ∀ (ops : List (Op α)) (l : List α), l.Nodup → (modelRun l ops).Nodup
  | [], l, h => h
  | Op.ins k :: ops, l, h => modelRun_nodup ops _ (modelIns_nodup l k h)
  | Op.del k :: ops, l, h => modelRun_nodup ops _ (h.erase k)

theorem ADS_set.runOps_spec {α : Type} [DecidableEq α] (hash : α → Nat) (N : Nat)
    (fuel : Nat) :
    ∀ (ops : List (Op α)) (st st' : ADS_set α) (acc : List α),
      ADS_set.Inv hash N st → acc.Nodup →
      (∀ x, x ∈ ADS_set.contents st ↔ x ∈ acc) →
      ADS_set.runOps hash N fuel st ops = some st' →
      ADS_set.Inv hash N st' ∧
      (∀ x, x ∈ ADS_set.contents st' ↔ x ∈ modelRun acc ops) := by
  intro ops
  induction ops with
  | nil =>
    intro st st' acc hInv hnd hmem hrun
    have hst : st = st' := Option.some.inj hrun
    subst hst
    exact ⟨hInv, hmem⟩
  | cons op ops ih =>
    intro st st' acc hInv hnd hmem hrun
    cases op with
    | ins k =>
      simp only [ADS_set.runOps, ADS_set.runOp] at hrun
      cases hins : ADS_set.insert hash N fuel st k with
      | none =>
        rw [hins] at hrun
        exact absurd hrun (by simp)
      | some rr =>
        rw [hins] at hrun
        have hrun2 : ADS_set.runOps hash N fuel rr.1 ops = some st' := hrun
        obtain ⟨hI1, hc1, -⟩ := (ADS_set.sim hash N fuel).1 st k rr hInv hins
        refine ih rr.1 st' (modelIns acc k) hI1 (modelIns_nodup acc k hnd) ?_ hrun2
        intro x
        rw [hc1 x, modelIns_mem, hmem x]
    | del k =>
      simp only [ADS_set.runOps, ADS_set.runOp] at hrun
      have hrun2 : ADS_set.runOps hash N fuel (ADS_set.erase hash N st k).2 ops =
          some st' := hrun
      obtain ⟨hI1, hc1, -⟩ := ADS_set.erase_spec hash N st k hInv
      refine ih _ st' (acc.erase k) hI1 (hnd.erase k) ?_ hrun2
      intro x
      rw [hc1 x, hnd.mem_erase_iff, hmem x]
      tauto

theorem modelRun_mem_surviving {α : Type} [DecidableEq α] :
    ∀ (ops : List (Op α)) (l : List α) (k : α), l.Nodup →
      (k ∈ modelRun l ops ↔ survivingFrom (decide (k ∈ l)) ops k = true)
  | [], l, k, _ => by
    show k ∈ l ↔ decide (k ∈ l) = true
    simp
  | Op.ins j :: ops, l, k, hnd => by
    have ih := modelRun_mem_surviving ops (modelIns l j) k (modelIns_nodup l j hnd)
    show k ∈ modelRun (modelIns l j) ops ↔
      survivingFrom (decide (k ∈ l) || (j == k)) ops k = true
    rw [ih]
    have hd : decide (k ∈ modelIns l j) = (decide (k ∈ l) || (j == k)) := by
      rw [Bool.eq_iff_iff]
      simp only [decide_eq_true_eq, Bool.or_eq_true, beq_iff_eq, modelIns_mem]
      constructor
      · rintro (h | rfl)
        · exact Or.inl h
        · exact Or.inr rfl
      · rintro (h | rfl)
        · exact Or.inl h
        · exact Or.inr rfl
    rw [hd]
  | Op.del j :: ops, l, k, hnd => by
    have ih := modelRun_mem_surviving ops (l.erase j) k (hnd.erase j)
    show k ∈ modelRun (l.erase j) ops ↔
      survivingFrom (decide (k ∈ l) && !(j == k)) ops k = true
    rw [ih]
    have hd : decide (k ∈ l.erase j) = (decide (k ∈ l) && !(j == k)) := by
      rw [Bool.eq_iff_iff]
      simp only [decide_eq_true_eq, Bool.and_eq_true, Bool.not_eq_true',
        beq_eq_false_iff_ne, ne_eq, hnd.mem_erase_iff]
      constructor
      · rintro ⟨hne, hm⟩
        exact ⟨hm, fun hc => hne hc.symm⟩
      · rintro ⟨hm, hne⟩
        exact ⟨fun hc => hne hc.symm, hm⟩
    rw [hd]

theorem modelRun_insOps_mem {α : Type} [DecidableEq α] :
    ∀ (l acc : List α) (x : α), x ∈ modelRun acc (l.map Op.ins) ↔ x ∈ acc ∨ x ∈ l
  | [], acc, x => by
    show x ∈ acc ↔ x ∈ acc ∨ x ∈ ([] : List α)
    simp
  | j :: l, acc, x => by
    show x ∈ modelRun (modelIns acc j) (l.map Op.ins) ↔ _
    rw [modelRun_insOps_mem l _ x, modelIns_mem]
    simp only [List.mem_cons]
    constructor
    · rintro ((h | rfl) | h)
      · exact Or.inl h
      · exact Or.inr (Or.inl rfl)
      · exact Or.inr (Or.inr h)
    · rintro (h | (rfl | h))
      · exact Or.inl (Or.inl h)
      · exact Or.inl (Or.inr rfl)
      · exact Or.inr h

theorem ADS_set.contents_init {α : Type} (N : Nat) :
    ADS_set.contents (ADS_set.init α N) = [] := by
  simp [ADS_set.contents, ADS_set.init, Bucket.empty]

/-! ### The claims -/

/-- C1: for every finite sequence of insert and erase operations applied
to a freshly constructed `ADS_set` (any key type, hasher and bucket size,
whenever the run completes within its fuel), `size()` equals the number of
distinct keys that have been inserted and not subsequently erased — the
length of the duplicate-free survivor list `modelRun [] ops` — and
`count(k)` returns 1 exactly for the surviving keys `k` and 0
otherwise. -/
theorem C1_set_semantics {α : Type} [DecidableEq α] (hash : α → Nat) (N : Nat)
    (hN : 0 < N) (fuel : Nat) (ops : List (Op α)) (st : ADS_set α)
    (hrun : ADS_set.runOps hash N fuel (ADS_set.init α N) ops = some st) :
    st.table_items_size = (modelRun [] ops).length ∧
    (∀ k, k ∈ modelRun [] ops ↔ survivingFrom false ops k = true) ∧
    (∀ k, ADS_set.count hash N st k =
      if survivingFrom false ops k = true then 1 else 0) := by
  obtain ⟨hInv, hmem⟩ := ADS_set.runOps_spec hash N fuel ops (ADS_set.init α N) st []
    (ADS_set.Inv_init hash N hN) List.nodup_nil
    (by
      intro x
      rw [ADS_set.contents_init]) hrun
  have hsurv : ∀ k, k ∈ modelRun ([] : List α) ops ↔
      survivingFrom false ops k = true := by
    intro k
    have := modelRun_mem_surviving ops [] k List.nodup_nil
    simpa using this
  refine ⟨?_, hsurv, ?_⟩
  · rw [ADS_set.items_eq_contents_length hash N st hInv]
    exact length_eq_of_nodup_mem_iff _ _ (ADS_set.contents_nodup hash N st hInv)
      (modelRun_nodup ops [] List.nodup_nil) hmem
  · intro k
    rw [ADS_set.count_spec hash N st k hInv]
    by_cases hs : survivingFrom false ops k = true
    · rw [if_pos ((hmem k).mpr ((hsurv k).mpr hs)), if_pos hs]
    · rw [if_neg (fun hc => hs ((hsurv k).mp ((hmem k).mp hc))), if_neg hs]

/-- C1 witness: the run insert 3, insert 5, erase 3 completes; its size is
the survivor count 1, key 5 survives (`count = 1`) and key 3 does not
(`count = 0`). -/
theorem C1_witness :
    w1st.table_items_size = (modelRun [] [Op.ins 3, Op.ins 5, Op.del 3]).length ∧
    ADS_set.count id 5 w1st 5 =
      (if survivingFrom false [Op.ins 3, Op.ins 5, Op.del 3] 5 = true then 1 else 0) ∧
    ADS_set.count id 5 w1st 3 =
      (if survivingFrom false [Op.ins 3, Op.ins 5, Op.del 3] 3 = true then 1 else 0) := by
  have h := C1_set_semantics id 5 (by decide) 30 [Op.ins 3, Op.ins 5, Op.del 3] w1st
    (by decide)
  exact ⟨h.1, h.2.2 5, h.2.2 3⟩

/-- C2: after any completed sequence of public operations on a fresh
index, every stored key is found exactly in the bucket whose index
`bucket_index` computes — `h_{d+1}(k)` when `h_d(k) < s`, else `h_d(k)` —
and in no other bucket. -/
theorem C2_address_invariant {α : Type} [DecidableEq α] (hash : α → Nat) (N : Nat)
    (hN : 0 < N) (fuel : Nat) (ops : List (Op α)) (st : ADS_set α)
    (hrun : ADS_set.runOps hash N fuel (ADS_set.init α N) ops = some st)
    (i : Nat) (hi : i < st.table.length) (k : α)
    (hk : k ∈ (ADS_set.bkt st i).values) :
    i = ADS_set.bucket_index hash st k ∧
    ADS_set.bucket_index hash st k =
      (if ADS_set.h hash st k < st.table_split_index
        then ADS_set.g hash st k
        else ADS_set.h hash st k) ∧
    ∀ j, j < st.table.length → k ∈ (ADS_set.bkt st j).values → j = i := by
  obtain ⟨hInv, -⟩ := ADS_set.runOps_spec hash N fuel ops (ADS_set.init α N) st []
    (ADS_set.Inv_init hash N hN) List.nodup_nil
    (by
      intro x
      rw [ADS_set.contents_init]) hrun
  have h1 := hInv.2.2.2.1 i hi k hk
  refine ⟨h1.symm, rfl, ?_⟩
  intro j hj hkj
  have h2 := hInv.2.2.2.1 j hj k hkj
  omega

/-- C2 witness: after a single insert of 3 (identity hash, `N = 5`), key 3
sits in bucket 1 and the address function evaluates to 1. -/
theorem C2_witness :
    1 = ADS_set.bucket_index id w2st 3 ∧
    ADS_set.bucket_index id w2st 3 =
      (if ADS_set.h id w2st 3 < w2st.table_split_index
        then ADS_set.g id w2st 3
        else ADS_set.h id w2st 3) := by
  have h := C2_address_invariant id 5 (by decide) 30 [Op.ins 3] w2st (by decide)
    1 (by decide) 3 (by decide)
  exact ⟨h.1, h.2.1⟩

/-- C6: after any completed sequence of public operations on a fresh
index, `2^d ≤ M ≤ 2^{d+1}`, `s ≤ 2^d`, and `s = 0` whenever `M = 2^d`;
the initial state is `d = 1`, `s = 0`, `M = 2`. -/
theorem C6_directory_invariant {α : Type} [DecidableEq α] (hash : α → Nat) (N : Nat)
    (hN : 0 < N) (fuel : Nat) (ops : List (Op α)) (st : ADS_set α)
    (hrun : ADS_set.runOps hash N fuel (ADS_set.init α N) ops = some st) :
    2 ^ st.split_round ≤ st.table.length ∧
    st.table.length ≤ 2 ^ (st.split_round + 1) ∧
    st.table_split_index ≤ 2 ^ st.split_round ∧
    (st.table.length = 2 ^ st.split_round → st.table_split_index = 0) ∧
    (ADS_set.init α N).split_round = 1 ∧
    (ADS_set.init α N).table_split_index = 0 ∧
    (ADS_set.init α N).table.length = 2 := by
  obtain ⟨hInv, -⟩ := ADS_set.runOps_spec hash N fuel ops (ADS_set.init α N) st []
    (ADS_set.Inv_init hash N hN) List.nodup_nil
    (by
      intro x
      rw [ADS_set.contents_init]) hrun
  have hpowlt : (2:Nat) ^ st.split_round < 2 ^ (st.split_round + 1) :=
    Nat.pow_lt_pow_right (by norm_num) (Nat.lt_succ_self st.split_round)
  have hshape := hInv.2.1
  refine ⟨?_, ?_, ?_, ?_, rfl, rfl, by simp [ADS_set.init]⟩
  · rcases hshape with ⟨hlen, -⟩ | ⟨hlen, -⟩ <;> omega
  · rcases hshape with ⟨hlen, -⟩ | ⟨hlen, -⟩ <;> omega
  · rcases hshape with ⟨-, hs⟩ | ⟨-, hs⟩ <;> omega
  · rcases hshape with ⟨-, hs⟩ | ⟨hlen, -⟩ <;> intro hl <;> omega

/-- C6 witness: the invariant holds at the state reached by insert 3,
insert 5, erase 3. -/
theorem C6_witness :
    2 ^ w1st.split_round ≤ w1st.table.length ∧
    w1st.table.length ≤ 2 ^ (w1st.split_round + 1) ∧
    w1st.table_split_index ≤ 2 ^ w1st.split_round ∧
    (w1st.table.length = 2 ^ w1st.split_round → w1st.table_split_index = 0) ∧
    (ADS_set.init Nat 5).split_round = 1 ∧
    (ADS_set.init Nat 5).table_split_index = 0 ∧
    (ADS_set.init Nat 5).table.length = 2 :=
  C6_directory_invariant id 5 (by decide) 30 [Op.ins 3, Op.ins 5, Op.del 3] w1st
    (by decide)

/-- C7: `operator==` is element-set equality — `a == b` holds iff the
stored-item counts agree and every element enumerated from `a` is counted
in `b` — and for any two insertion sequences that are permutations of each
other, the indices built from them compare equal, regardless of their
internal `(d, s, M)` states. -/
theorem C7_equality {α : Type} [DecidableEq α] (hash : α → Nat) (N : Nat)
    (hN : 0 < N) (a b : ADS_set α) (fuel : Nat) (l1 l2 : List α)
    (hperm : l1.Perm l2) (A B : ADS_set α)
    (hA : ADS_set.runOps hash N fuel (ADS_set.init α N) (l1.map Op.ins) = some A)
    (hB : ADS_set.runOps hash N fuel (ADS_set.init α N) (l2.map Op.ins) = some B) :
    (ADS_set.beq hash N a b = true ↔
      a.table_items_size = b.table_items_size ∧
      ∀ k ∈ ADS_set.contents a, ADS_set.count hash N b k ≠ 0) ∧
    ADS_set.beq hash N A B = true := by
  constructor
  · unfold ADS_set.beq
    by_cases hsz : a.table_items_size ≠ b.table_items_size
    · rw [if_pos hsz]
      simp only [Bool.false_eq_true, false_iff, not_and]
      intro hc
      exact absurd hc hsz
    · rw [if_neg hsz]
      rw [List.all_eq_true]
      push_neg at hsz
      constructor
      · intro hall
        refine ⟨hsz, ?_⟩
        intro k hk
        have := hall k hk
        simpa using this
      · rintro ⟨-, hall⟩
        intro k hk
        simpa using hall k hk
  · obtain ⟨hIA, hmemA⟩ := ADS_set.runOps_spec hash N fuel (l1.map Op.ins)
      (ADS_set.init α N) A [] (ADS_set.Inv_init hash N hN) List.nodup_nil
      (by
        intro x
        rw [ADS_set.contents_init]) hA
    obtain ⟨hIB, hmemB⟩ := ADS_set.runOps_spec hash N fuel (l2.map Op.ins)
      (ADS_set.init α N) B [] (ADS_set.Inv_init hash N hN) List.nodup_nil
      (by
        intro x
        rw [ADS_set.contents_init]) hB
    have hmemA' : ∀ x, x ∈ ADS_set.contents A ↔ x ∈ l1 := by
      intro x
      rw [hmemA x, modelRun_insOps_mem]
      simp
    have hmemB' : ∀ x, x ∈ ADS_set.contents B ↔ x ∈ l2 := by
      intro x
      rw [hmemB x, modelRun_insOps_mem]
      simp
    have hmemAB : ∀ x, x ∈ ADS_set.contents A ↔ x ∈ ADS_set.contents B := by
      intro x
      rw [hmemA' x, hmemB' x]
      exact hperm.mem_iff
    have hsz : A.table_items_size = B.table_items_size := by
      rw [ADS_set.items_eq_contents_length hash N A hIA,
        ADS_set.items_eq_contents_length hash N B hIB]
      exact length_eq_of_nodup_mem_iff _ _ (ADS_set.contents_nodup hash N A hIA)
        (ADS_set.contents_nodup hash N B hIB) hmemAB
    unfold ADS_set.beq
    rw [if_neg (by omega)]
    rw [List.all_eq_true]
    intro k hk
    have hkB : k ∈ ADS_set.contents B := (hmemAB k).mp hk
    rw [ADS_set.count_spec hash N B k hIB, if_pos hkB]
    simp

/-- C7 witness: the indices built from the permuted insertion orders
1, 2 and 2, 1 compare equal. -/
theorem C7_witness : ADS_set.beq id 5 c7a c7b = true :=
  (C7_equality id 5 (by decide) c7a c7b 30 [1, 2] [2, 1] (by decide) c7a c7b
    (by decide) (by decide)).2

/-- C3 counterexample: the split trigger is not bypassed during
re-insertion.  After inserting 1, 5, 9, 13, 17, 21, 4, 8, 12, 16, 20
(identity hash, `N = 5`) exactly one split has happened; the single
user-level `insert(24)` then performs two further splits (the ghost
counter goes from 1 to 3): draining bucket 1 re-inserts its six keys
through the full `insert` path, and the sixth re-insertion finds its
target bucket full and chains into a second split.  This refutes "at most
one split per user-level insert". -/
theorem C3_counterexample :
    ADS_set.runOps id 5 30 (ADS_set.init Nat 5)
      (insOps [1, 5, 9, 13, 17, 21, 4, 8, 12, 16, 20]) = some c3st ∧
    c3st.split_count = 1 ∧
    (ADS_set.insert id 5 30 c3st 24).map (fun r => r.1.split_count) = some 3 := by
  refine ⟨by decide, by decide, by decide⟩

/-- C3 as amended: during a split the drained keys are re-inserted through
the normal `insert` path with the split trigger active, so a secondary
overflow during re-insertion chains into a further split and a single
user-level insert can perform more than one split: here `insert(24)`
performs exactly two (the key 24 was absent, `n` = 11 before). -/
theorem C3_reinsert_chains_splits :
    (ADS_set.insert id 5 30 c3st 24).map
      (fun r => (r.1.split_count - c3st.split_count, r.2.2)) = some (2, true) ∧
    ADS_set.count id 5 c3st 24 = 0 ∧
    c3st.table_items_size = 11 ∧
    (ADS_set.insert id 5 30 c3st 24).map (fun r => r.1.table_items_size) =
      some 12 := by
  refine ⟨by decide, by decide, by decide, by decide⟩

/-- C4 counterexample: inserting a key that is already stored is not
side-effect free.  After inserting 1, 3, 5, 7, 9 (identity hash, `N = 5`)
bucket 1 is full and contains 9; `insert(9)` returns `false` but performs
a split: the directory length doubles from 2 to 4 and the ghost split
counter goes from 0 to 1, refuting "performs no split and no modification
of the index state". -/
theorem C4_counterexample :
    ADS_set.count id 5 c4st 9 = 1 ∧
    c4st.table.length = 2 ∧ c4st.split_count = 0 ∧
    (ADS_set.insert id 5 30 c4st 9).map
      (fun r => (r.1.table.length, r.1.split_count, r.2.2)) = some (4, 1, false) := by
  refine ⟨by decide, by decide, by decide, by decide⟩

/-- C4 as amended: if the key is already contained AND its target bucket
is not full, `insert` returns the pair (slot of the key, `false`) and the
state — `d`, `s`, `M`, `n`, the directory and every bucket — is exactly
unchanged.  (When the target bucket is full a split is performed first:
see the counterexample.) -/
theorem C4_insert_present_not_full {α : Type} [DecidableEq α] (hash : α → Nat)
    (N : Nat) (fuel : Nat) (st : ADS_set α) (k : α)
    (hmem : ADS_set.count hash N st k = 1)
    (hfull : (ADS_set.bucket_at hash N st k).full = false) :
    ADS_set.insert hash N (fuel + 1) st k =
      some (st, Bucket.index_of (ADS_set.bucket_at hash N st k) k, false) := by
  have hne : Bucket.index_of (ADS_set.bucket_at hash N st k) k ≠
      (ADS_set.bucket_at hash N st k).capacity := by
    intro hc
    unfold ADS_set.count Bucket.count at hmem
    rw [if_pos hc] at hmem
    exact absurd hmem (by norm_num)
  have hins : Bucket.insert N (ADS_set.bucket_at hash N st k) k =
      ((Bucket.index_of (ADS_set.bucket_at hash N st k) k, false),
        ADS_set.bucket_at hash N st k) := by
    simp only [Bucket.insert]
    rw [if_pos hne]
  rw [ADS_set.insert_succ, hfull]
  show some ({ st with
      table := st.table.set (ADS_set.bucket_index hash st k)
        (Bucket.insert N (ADS_set.bucket_at hash N st k) k).2
      table_items_size :=
        if (Bucket.insert N (ADS_set.bucket_at hash N st k) k).1.2
        then st.table_items_size + 1 else st.table_items_size },
    (Bucket.insert N (ADS_set.bucket_at hash N st k) k).1.1,
    (Bucket.insert N (ADS_set.bucket_at hash N st k) k).1.2) =
    some (st, Bucket.index_of (ADS_set.bucket_at hash N st k) k, false)
  rw [hins]
  simp only [Bool.false_eq_true, if_false]
  rw [show st.table.set (ADS_set.bucket_index hash st k)
      (ADS_set.bucket_at hash N st k) = st.table from
    set_getD_self st.table (ADS_set.bucket_index hash st k) (Bucket.empty α N)]

/-- C4 witness: after a single insert of 1 the bucket of 1 is not full;
re-inserting 1 returns slot 0 and `false` and leaves the state exactly
unchanged. -/
theorem C4_witness :
    ADS_set.count id 5 c4wst 1 = 1 ∧
    (ADS_set.bucket_at id 5 c4wst 1).full = false ∧
    ADS_set.insert id 5 30 c4wst 1 =
      some (c4wst, Bucket.index_of (ADS_set.bucket_at id 5 c4wst 1) 1, false) :=
  ⟨by decide, by decide,
    C4_insert_present_not_full id 5 29 c4wst 1 (by decide) (by decide)⟩

/-- C5 counterexample: the round-advance condition is tested on the
pre-increment split pointer, so after the split of the last unsplit bucket
of round `d` the end-of-round state `(d, 2^d, 2^{d+1})` IS observable
between public operations.  Inserting the odd keys 1..21 (identity hash,
`N = 5`) ends with `d = 1`, `s = 2 = 2^d`, `M = 4` — not the claimed
`(d+1, 0, 2^{d+1})`. -/
theorem C5_counterexample :
    ADS_set.runOps id 5 30 (ADS_set.init Nat 5)
      (insOps [1, 3, 5, 7, 9, 11, 13, 15, 17, 19, 21]) = some c5st ∧
    c5st.split_round = 1 ∧
    c5st.table_split_index = 2 ^ c5st.split_round ∧
    c5st.table.length = 2 ^ (c5st.split_round + 1) := by
  refine ⟨by decide, by decide, by decide, by decide⟩

/-- C5 as amended: the code checks `s ≥ 2^d` BEFORE incrementing the
split pointer, so splitting the last unsplit bucket of round `d` leaves
the observable end-of-round state `(d, 2^d, 2^{d+1})`; the round advances
only during the NEXT split, which drains the bucket at index `2^d` and
then sets the state to `(d+1, 0, 2^{d+1})`.  Concretely: after the odd
keys 1..21 the state is `(1, 2, 4)`; the next insert (23) splits once more
and the state becomes `(2, 0, 4)`. -/
theorem C5_round_advance_is_late :
    (c5st.split_round = 1 ∧ c5st.table_split_index = 2 ∧ c5st.table.length = 4) ∧
    ADS_set.runOps id 5 30 (ADS_set.init Nat 5)
      (insOps [1, 3, 5, 7, 9, 11, 13, 15, 17, 19, 21, 23]) = some c5st2 ∧
    c5st2.split_count = c5st.split_count + 1 ∧
    c5st2.split_round = 2 ∧ c5st2.table_split_index = 0 ∧
    c5st2.table.length = 4 := by
  refine ⟨⟨by decide, by decide, by decide⟩, by decide, by decide, by decide,
    by decide, by decide⟩

/-- C8 counterexample: the sentinel returned by `Bucket::index_of` for an
absent key is the bucket's CAPACITY, not its size: on a bucket holding one
value with capacity 5, `index_of` of an absent key returns 5 while the
size is 1. -/
theorem C8_counterexample :
    Bucket.index_of (⟨[3], 5⟩ : Bucket Nat) 9 = 5 ∧
    (⟨[3], 5⟩ : Bucket Nat).values.length = 1 ∧
    (⟨[3], 5⟩ : Bucket Nat).capacity = 5 := by
  refine ⟨by decide, by decide, by decide⟩

/-- C8 as amended: `Bucket::index_of` returns the slot index `i < size`
at which `k` is stored when `k` is present, and otherwise a sentinel equal
to the bucket's CAPACITY (`values_capacity`), not its size. -/
theorem C8_index_of_spec {α : Type} [DecidableEq α] (b : Bucket α) (k : α) :
    (k ∉ b.values → b.index_of k = b.capacity) ∧
    (k ∈ b.values → b.index_of k < b.values.length ∧
      b.values[b.index_of k]? = some k) := by
  constructor
  · intro h
    unfold Bucket.index_of
    rw [(scanIdx_eq_none_iff k b.values).mpr h]
    rfl
  · intro h
    exact Bucket.index_of_mem b k h

/-- C8 witness: on `⟨[3], 5⟩` the absent key 9 yields the sentinel 5
(the capacity); on `⟨[3, 4], 5⟩` the present key 4 is found at a slot
below the size holding 4. -/
theorem C8_witness :
    Bucket.index_of (⟨[3], 5⟩ : Bucket Nat) 9 = (⟨[3], 5⟩ : Bucket Nat).capacity ∧
    (Bucket.index_of (⟨[3, 4], 5⟩ : Bucket Nat) 4 <
        (⟨[3, 4], 5⟩ : Bucket Nat).values.length ∧
      (⟨[3, 4], 5⟩ : Bucket Nat).values[Bucket.index_of
        (⟨[3, 4], 5⟩ : Bucket Nat) 4]? = some 4) :=
  ⟨(C8_index_of_spec (⟨[3], 5⟩ : Bucket Nat) 9).1 (by decide),
    (C8_index_of_spec (⟨[3, 4], 5⟩ : Bucket Nat) 4).2 (by decide)⟩

/-- C9 counterexample: with `B = 5`, integer keys and the identity hash,
inserting 1..6 into a fresh index performs NO split at all: keys 1..5
spread over the two buckets as odd/even ({1,3,5} and {2,4}), so key 6
lands in the non-full even bucket, and the final state is `d = 1`,
`s = 0`, `M = 2` — not the claimed `d = 2, s = 1, M = 4`. -/
theorem C9_counterexample :
    ADS_set.runOps id 5 30 (ADS_set.init Nat 5) (insOps [1, 2, 3, 4, 5, 6]) =
      some c9st ∧
    c9st.split_count = 0 ∧
    c9st.split_round = 1 ∧ c9st.table_split_index = 0 ∧ c9st.table.length = 2 := by
  refine ⟨by decide, by decide, by decide, by decide, by decide⟩

/-- C9 as amended: inserting 1..5 triggers no split; the bucket key 6
hashes to then holds only {2, 4} and is not full, so inserting 6 also
triggers no split and succeeds, leaving `d = 1`, `s = 0`, `M = 2` with 6
stored items. -/
theorem C9_scenario_S1 :
    ADS_set.runOps id 5 30 (ADS_set.init Nat 5) (insOps [1, 2, 3, 4, 5]) =
      some c9st5 ∧
    c9st5.split_count = 0 ∧
    ADS_set.bucket_at id 5 c9st5 6 = ⟨[2, 4], 5⟩ ∧
    (ADS_set.bucket_at id 5 c9st5 6).full = false ∧
    (ADS_set.insert id 5 30 c9st5 6).map
      (fun r => (r.1.split_round, r.1.table_split_index, r.1.table.length,
        r.1.split_count, r.1.table_items_size, r.2.2)) =
      some (1, 0, 2, 0, 6, true) := by
  refine ⟨by decide, by decide, by decide, by decide, by decide⟩

/-- C10: the `Iterator` constructor evaluates `current->size()` before
comparing `current` with `end`, so `end()` — which constructs
`Iterator(table + M, table + M, 0)` — reads a bucket field at offset `M`,
one past the directory: in the total embedding that read is `none`, i.e.
the `none` branch IS reachable.  On a fresh index (`M = 2`) the `end()`
construction reads position 2 and yields `none`, while `begin()` stays
strictly inside the directory and succeeds (skipping the two empty
buckets, it stops at the end sentinel). -/
theorem C10_end_iterator_reads_past_directory :
    ADS_set.end_iter (ADS_set.init Nat 5) = none ∧
    (ADS_set.init Nat 5).table.length = 2 ∧
    iterCtor (ADS_set.init Nat 5).table 2 0 = none ∧
    ADS_set.begin_iter (ADS_set.init Nat 5) = some (2, 0) := by
  refine ⟨by decide, by decide, by decide, by decide⟩
